import Mathlib

/-!
# Verification of the apfsprogs on-disk traversal engine

A shallow embedding, in Lean 4, of the data model and operations of the
`apfsck` consistency checker from the `apfsprogs` repository, together with
theorems settling the specification claims about it.

Conventions used throughout:
* machine integers are modelled as `Nat` with an explicit `% 2 ^ w`
  wherever the C arithmetic can wrap;
* an on-disk block is a list of little-endian 32-bit words (`List Nat`),
  matching how `fletcher64` consumes it; multi-word fields are rebuilt from
  their word positions in the corresponding C struct;
* fallible checker routines return `Except`/`Option`; each `report(...)`
  call in the C source becomes a distinct error value;
* process-wide state (`sb`, the bitmaps, the audit tables) is passed
  explicitly.
-/

namespace Apfsck

/-! ## Fletcher-64 checksum (apfsck/object.c) -/

/-- The accumulation loop of `fletcher64` (object.c, lines 25-28):
`sum1 += le32_to_cpu(buff[i]); sum2 += sum1;` with `u64` accumulators. -/
def fletcherLoop : List Nat → Nat → Nat → Nat × Nat
  | [], s1, s2 => (s1, s2)
  | w :: ws, s1, s2 =>
      let t1 := (s1 + w) % 2 ^ 64
      let t2 := (s2 + t1) % 2 ^ 64
      fletcherLoop ws t1 t2

/-- `fletcher64` from object.c: after the loop,
`c1 = 0xFFFFFFFF - (sum1 + sum2) % 0xFFFFFFFF`,
`c2 = 0xFFFFFFFF - (sum1 + c1) % 0xFFFFFFFF`, result `(c2 << 32) | c1`.
The input is the list of little-endian `u32` words of the checksummed body. -/
def fletcher64 (words : List Nat) : Nat :=
  let s := fletcherLoop words 0 0
  let c1 := 0xFFFFFFFF - (s.1 + s.2) % 2 ^ 64 % 0xFFFFFFFF
  let c2 := 0xFFFFFFFF - (s.1 + c1) % 2 ^ 64 % 0xFFFFFFFF
  (c2 <<< 32) ||| c1

/-- The accumulation loop exactly as the specification words it: both running
sums are reduced modulo `2^32 - 1` at every step. -/
def fletcherSpecLoop : List Nat → Nat → Nat → Nat × Nat
  | [], s1, s2 => (s1, s2)
  | w :: ws, s1, s2 =>
      let t1 := (s1 + w) % 0xFFFFFFFF
      let t2 := (s2 + t1) % 0xFFFFFFFF
      fletcherSpecLoop ws t1 t2

/-- Fletcher-64 as described by the specification text (refinement model,
written from the spec's words, to be compared with `fletcher64`). -/
def fletcher64Spec (words : List Nat) : Nat :=
  let s := fletcherSpecLoop words 0 0
  let c1 := 0xFFFFFFFF - (s.1 + s.2) % 0xFFFFFFFF
  let c2 := 0xFFFFFFFF - (s.1 + c1) % 0xFFFFFFFF
  (c2 <<< 32) ||| c1

/-- The idealized loop with unbounded natural-number accumulators. -/
def fletcherNatLoop : List Nat → Nat → Nat → Nat × Nat
  | [], s1, s2 => (s1, s2)
  | w :: ws, s1, s2 => fletcherNatLoop ws (s1 + w) (s2 + (s1 + w))

theorem fletcherLoop_eq_nat (ws : List Nat) : ∀ s1 s2 : Nat,
    (∀ w ∈ ws, w < 2 ^ 32) →
    s1 + ws.length * 2 ^ 32 < 2 ^ 42 →
    s1 + s2 + ws.length * 2 ^ 43 < 2 ^ 64 →
    fletcherLoop ws s1 s2 = fletcherNatLoop ws s1 s2 := by
  induction ws with
  | nil => intro s1 s2 _ _ _; rfl
  | cons w ws ih =>
    intro s1 s2 hmem h1 h2
    have hw : w < 2 ^ 32 := hmem w (List.mem_cons_self w ws)
    have hlen : (w :: ws).length * 2 ^ 32 = ws.length * 2 ^ 32 + 2 ^ 32 := by
      simp [List.length_cons, Nat.succ_mul]
    have hlen' : (w :: ws).length * 2 ^ 43 = ws.length * 2 ^ 43 + 2 ^ 43 := by
      simp [List.length_cons, Nat.succ_mul]
    have hs1w : s1 + w < 2 ^ 42 := by
      have : s1 + w < s1 + 2 ^ 32 := by omega
      omega
    have hs1w64 : s1 + w < 2 ^ 64 := lt_trans hs1w (by norm_num)
    have ht1 : (s1 + w) % 2 ^ 64 = s1 + w := Nat.mod_eq_of_lt hs1w64
    have hs2' : s2 + (s1 + w) < 2 ^ 64 := by omega
    have ht2 : (s2 + (s1 + w)) % 2 ^ 64 = s2 + (s1 + w) :=
      Nat.mod_eq_of_lt hs2'
    show fletcherLoop ws ((s1 + w) % 2 ^ 64) ((s2 + (s1 + w) % 2 ^ 64) % 2 ^ 64)
        = fletcherNatLoop ws (s1 + w) (s2 + (s1 + w))
    rw [ht1, ht2]
    refine ih (s1 + w) (s2 + (s1 + w)) (fun x hx => hmem x (List.mem_cons_of_mem w hx)) ?_ ?_
    · omega
    · omega

theorem fletcherSpecLoop_modEq (ws : List Nat) : ∀ s1 s2 t1 t2 : Nat,
    Nat.ModEq 0xFFFFFFFF t1 s1 → Nat.ModEq 0xFFFFFFFF t2 s2 →
    Nat.ModEq 0xFFFFFFFF (fletcherSpecLoop ws t1 t2).1 (fletcherNatLoop ws s1 s2).1 ∧
    Nat.ModEq 0xFFFFFFFF (fletcherSpecLoop ws t1 t2).2 (fletcherNatLoop ws s1 s2).2 := by
  induction ws with
  | nil => intro s1 s2 t1 t2 h1 h2; exact ⟨h1, h2⟩
  | cons w ws ih =>
    intro s1 s2 t1 t2 h1 h2
    have h1' : Nat.ModEq 0xFFFFFFFF ((t1 + w) % 0xFFFFFFFF) (s1 + w) :=
      (Nat.mod_modEq _ _).trans (Nat.ModEq.add_right w h1)
    have h2' : Nat.ModEq 0xFFFFFFFF ((t2 + (t1 + w) % 0xFFFFFFFF) % 0xFFFFFFFF)
        (s2 + (s1 + w)) :=
      (Nat.mod_modEq _ _).trans (Nat.ModEq.add h2 h1')
    exact ih (s1 + w) (s2 + (s1 + w)) _ _ h1' h2'

theorem fletcherNatLoop_bound (ws : List Nat) : ∀ s1 s2 : Nat,
    (∀ w ∈ ws, w < 2 ^ 32) →
    s1 + ws.length * 2 ^ 32 < 2 ^ 42 →
    s1 + s2 + ws.length * 2 ^ 43 < 2 ^ 64 →
    (fletcherNatLoop ws s1 s2).1 < 2 ^ 42 ∧
    (fletcherNatLoop ws s1 s2).1 + (fletcherNatLoop ws s1 s2).2 < 2 ^ 64 := by
  induction ws with
  | nil => intro s1 s2 _ h1 h2; constructor <;> simp [fletcherNatLoop] <;> omega
  | cons w ws ih =>
    intro s1 s2 hmem h1 h2
    have hw : w < 2 ^ 32 := hmem w (List.mem_cons_self w ws)
    have hlen : (w :: ws).length * 2 ^ 32 = ws.length * 2 ^ 32 + 2 ^ 32 := by
      simp [List.length_cons, Nat.succ_mul]
    have hlen' : (w :: ws).length * 2 ^ 43 = ws.length * 2 ^ 43 + 2 ^ 43 := by
      simp [List.length_cons, Nat.succ_mul]
    show (fletcherNatLoop ws (s1 + w) (s2 + (s1 + w))).1 < 2 ^ 42 ∧ _
    refine ih (s1 + w) (s2 + (s1 + w)) (fun x hx => hmem x (List.mem_cons_of_mem w hx)) ?_ ?_
    · omega
    · omega

/-- The equivalence of the specification's Fletcher-64 (running sums reduced
modulo `2^32 - 1` at each step) with the source's (plain `u64` accumulators,
reduced only at the end), for any body of at most 1022 32-bit words — i.e.
for any block of at most 4096 bytes. -/
theorem fletcher64Spec_eq_fletcher64 (words : List Nat)
    (hmem : ∀ w ∈ words, w < 2 ^ 32) (hlen : words.length ≤ 1022) :
    fletcher64Spec words = fletcher64 words := by
  have hb1 : 0 + words.length * 2 ^ 32 < 2 ^ 42 := by
    have := Nat.mul_le_mul_right (2 ^ 32) hlen
    omega
  have hb2 : 0 + 0 + words.length * 2 ^ 43 < 2 ^ 64 := by
    have := Nat.mul_le_mul_right (2 ^ 43) hlen
    omega
  have hloop : fletcherLoop words 0 0 = fletcherNatLoop words 0 0 :=
    fletcherLoop_eq_nat words 0 0 hmem hb1 hb2
  have hbound := fletcherNatLoop_bound words 0 0 hmem hb1 hb2
  have hmod := fletcherSpecLoop_modEq words 0 0 0 0 rfl rfl
  set N := fletcherNatLoop words 0 0 with hN
  set S := fletcherSpecLoop words 0 0 with hS
  unfold fletcher64Spec fletcher64
  rw [← hS, hloop]
  simp only []
  have hsum64 : (N.1 + N.2) % 2 ^ 64 = N.1 + N.2 := Nat.mod_eq_of_lt hbound.2
  have hsum_mod : (S.1 + S.2) % 0xFFFFFFFF = (N.1 + N.2) % 0xFFFFFFFF :=
    Nat.ModEq.add hmod.1 hmod.2
  rw [hsum64, hsum_mod]
  have hc1 : (N.1 + N.2) % 0xFFFFFFFF < 0xFFFFFFFF := Nat.mod_lt _ (by norm_num)
  have hc2_64 : (N.1 + (0xFFFFFFFF - (N.1 + N.2) % 0xFFFFFFFF)) % 2 ^ 64
      = N.1 + (0xFFFFFFFF - (N.1 + N.2) % 0xFFFFFFFF) := by
    apply Nat.mod_eq_of_lt
    have h42 : (2 : Nat) ^ 42 + 2 ^ 32 < 2 ^ 64 := by norm_num
    have : (0xFFFFFFFF : Nat) - (N.1 + N.2) % 0xFFFFFFFF ≤ 0xFFFFFFFF := by omega
    have h1 := hbound.1
    norm_num at h1 this ⊢
    omega
  rw [hc2_64]
  have hc2_mod : (S.1 + (0xFFFFFFFF - (N.1 + N.2) % 0xFFFFFFFF)) % 0xFFFFFFFF
      = (N.1 + (0xFFFFFFFF - (N.1 + N.2) % 0xFFFFFFFF)) % 0xFFFFFFFF :=
    Nat.ModEq.add_right _ hmod.1
  rw [hc2_mod]

/-! ## Object blocks and the checksum-verifying readers
(apfsck/object.c, btree.c, super.c)

A block is its list of little-endian `u32` words.  The 32-byte object header
occupies words 0-7: `o_cksum` (words 0-1), `o_oid` (2-3), `o_xid` (4-5),
`o_type` (6), `o_subtype` (7).  The container-superblock magic `nx_magic`
sits right after the header, at word 8. -/

/-- Word `i` of a block (missing words read as zero). -/
def blkWord (b : List Nat) (i : Nat) : Nat := b.getD i 0

/-- The stored checksum `o_cksum`: 64-bit little-endian at words 0-1. -/
def storedCksum (b : List Nat) : Nat := blkWord b 0 + blkWord b 1 * 2 ^ 32

/-- `obj_verify_csum` (object.c): the stored checksum must equal the
Fletcher-64 of the block starting `APFS_MAX_CKSUM_SIZE = 8` bytes in,
that is, of all words from index 2 on. -/
def objVerifyCsum (b : List Nat) : Bool :=
  storedCksum b == fletcher64 (b.drop 2)

def APFS_NX_MAGIC : Nat := 0x4253584E
def APFS_OID_NX_SUPERBLOCK : Nat := 1
def APFS_OBJECT_TYPE_MASK : Nat := 0x0000ffff
def APFS_OBJECT_TYPE_FLAGS_MASK : Nat := 0xffff0000
def APFS_BTNODE_ROOT : Nat := 0x0001
def APFS_BTNODE_LEAF : Nat := 0x0002
def APFS_BTNODE_FIXED_KV_SIZE : Nat := 0x0004

/-- One error value per distinct `report(...)` site that the embedded
routines can reach. -/
inductive ReadErr where
  | badChecksum
  | notSane
  | notApfs
  | zeroBadChecksum
  | zeroBadOid
  deriving DecidableEq, Repr

/-- In-memory `struct object`, as filled by `read_object_nocheck`. -/
structure Object where
  oid : Nat
  xid : Nat
  blockNr : Nat
  type : Nat
  flags : Nat
  subtype : Nat
  deriving DecidableEq, Repr

/-- `read_object_nocheck` (object.c): verify the Fletcher checksum, then
extract the header fields. -/
def readObjectNocheck (bno : Nat) (b : List Nat) : Except ReadErr Object :=
  if ¬ objVerifyCsum b then .error .badChecksum
  else .ok
    { oid := blkWord b 2 + blkWord b 3 * 2 ^ 32
      xid := blkWord b 4 + blkWord b 5 * 2 ^ 32
      blockNr := bno
      type := blkWord b 6 &&& APFS_OBJECT_TYPE_MASK
      flags := blkWord b 6 &&& APFS_OBJECT_TYPE_FLAGS_MASK
      subtype := blkWord b 7 }

/-- In-memory `struct node` header data, as read by `read_node`. -/
structure NodeHdr where
  flags : Nat
  records : Nat
  key : Nat
  free : Nat
  data : Nat
  blockNr : Nat
  oid : Nat
  deriving DecidableEq, Repr

def nodeHdrOfBlock (block : Nat) (b : List Nat) : NodeHdr :=
  let key := 56 + blkWord b 10 % 2 ^ 16 + blkWord b 10 / 2 ^ 16 % 2 ^ 16
  let free := key + blkWord b 11 % 2 ^ 16
  { flags := blkWord b 8 % 2 ^ 16
    records := blkWord b 9
    key := key
    free := free
    data := free + blkWord b 11 / 2 ^ 16 % 2 ^ 16
    blockNr := block
    oid := blkWord b 2 + blkWord b 3 * 2 ^ 32 }

/-- `node_is_valid` (btree.c): nonzero record count, key area inside the
block, and a table of contents large enough for all the records. -/
def nodeIsValid (blocksize : Nat) (n : NodeHdr) : Bool :=
  let entrySize := if n.flags &&& APFS_BTNODE_FIXED_KV_SIZE ≠ 0 then 4 else 8
  n.records ≠ 0 && n.key ≤ blocksize && n.records * entrySize ≤ n.key - 56

/-- `read_node` (btree.c): parse the header, check the checksum, then the
node sanity. -/
def readNode (blocksize : Nat) (block : Nat) (b : List Nat) :
    Except ReadErr NodeHdr :=
  let node := nodeHdrOfBlock block b
  if ¬ objVerifyCsum b then .error .badChecksum
  else if ¬ nodeIsValid blocksize node then .error .notSane
  else .ok node

/-- `read_super_copy` (super.c): block zero must carry the container magic,
verify its checksum, and hold the reserved superblock object id. -/
def readSuperCopy (b : List Nat) : Except ReadErr Object :=
  if blkWord b 8 ≠ APFS_NX_MAGIC then .error .notApfs
  else if ¬ objVerifyCsum b then .error .zeroBadChecksum
  else if blkWord b 2 + blkWord b 3 * 2 ^ 32 ≠ APFS_OID_NX_SUPERBLOCK then
    .error .zeroBadOid
  else .ok
    { oid := blkWord b 2 + blkWord b 3 * 2 ^ 32
      xid := blkWord b 4 + blkWord b 5 * 2 ^ 32
      blockNr := 0
      type := blkWord b 6 &&& APFS_OBJECT_TYPE_MASK
      flags := blkWord b 6 &&& APFS_OBJECT_TYPE_FLAGS_MASK
      subtype := blkWord b 7 }

/-- C1.  Every object block read from disk — by `read_object_nocheck`, by
`read_node`, and by `read_super_copy` — must carry, at words 0-1, the
Fletcher-64 checksum of the body starting 8 bytes past the start of the
block, where Fletcher-64 accumulates `sum1 += w; sum2 += sum1` (modulo
`2^32 - 1`, equivalently in plain `u64` arithmetic for any real block), and
ends with `c1 = 0xFFFFFFFF - (sum1+sum2) % 0xFFFFFFFF` as the low 32 bits
and `0xFFFFFFFF - (sum1+c1) % 0xFFFFFFFF` as the high 32 bits; whenever the
stored checksum differs from this value each reader reports corruption. -/
theorem fletcher_checksum_verified_on_every_read
    (words : List Nat) (bno blocksize : Nat) (b : List Nat)
    (hmem : ∀ w ∈ words, w < 2 ^ 32) (hlen : words.length ≤ 1022) :
    fletcher64Spec words = fletcher64 words ∧
    ((∃ o, readObjectNocheck bno b = .ok o) ↔
      storedCksum b = fletcher64 (b.drop 2)) ∧
    (storedCksum b ≠ fletcher64 (b.drop 2) →
      readObjectNocheck bno b = .error .badChecksum ∧
      readNode blocksize bno b = .error .badChecksum ∧
      (blkWord b 8 = APFS_NX_MAGIC →
        readSuperCopy b = .error .zeroBadChecksum)) ∧
    (∀ n, readNode blocksize bno b = .ok n →
      storedCksum b = fletcher64 (b.drop 2)) ∧
    (∀ o, readSuperCopy b = .ok o → storedCksum b = fletcher64 (b.drop 2)) := by
  refine ⟨fletcher64Spec_eq_fletcher64 words hmem hlen, ?_, ?_, ?_, ?_⟩
  · constructor
    · rintro ⟨o, ho⟩
      by_cases h : objVerifyCsum b
      · simpa [objVerifyCsum] using h
      · simp [readObjectNocheck, h] at ho
    · intro h
      have hb : objVerifyCsum b := by simpa [objVerifyCsum] using h
      exact ⟨{ oid := blkWord b 2 + blkWord b 3 * 2 ^ 32
               xid := blkWord b 4 + blkWord b 5 * 2 ^ 32
               blockNr := bno
               type := blkWord b 6 &&& APFS_OBJECT_TYPE_MASK
               flags := blkWord b 6 &&& APFS_OBJECT_TYPE_FLAGS_MASK
               subtype := blkWord b 7 }, by simp [readObjectNocheck, hb]⟩
  · intro h
    have hb : ¬ objVerifyCsum b = true := by simpa [objVerifyCsum] using h
    refine ⟨by simp [readObjectNocheck, hb], by simp [readNode, hb], ?_⟩
    intro hmagic
    simp [readSuperCopy, hmagic, hb]
  · intro n hn
    by_cases h : objVerifyCsum b
    · simpa [objVerifyCsum] using h
    · simp [readNode, h] at hn
  · intro o ho
    by_cases h : objVerifyCsum b
    · simpa [objVerifyCsum] using h
    · by_cases hm : blkWord b 8 = APFS_NX_MAGIC <;>
        simp [readSuperCopy, h, hm] at ho

/-- Witness for C1 at a concrete block: words `[1, 2, 3]` as the body,
prefixed by its correctly-split Fletcher checksum; the read succeeds, and a
corrupted copy is rejected by all three readers. -/
theorem fletcher_checksum_verified_on_every_read_witness :
    fletcher64Spec [1, 2, 3] = fletcher64 [1, 2, 3] ∧
    (∃ o, readObjectNocheck 5
      (fletcher64 [1, 2, 3] % 2 ^ 32 :: fletcher64 [1, 2, 3] / 2 ^ 32 :: [1, 2, 3])
        = .ok o) := by
  have h := fletcher_checksum_verified_on_every_read [1, 2, 3] 5 4096
    (fletcher64 [1, 2, 3] % 2 ^ 32 :: fletcher64 [1, 2, 3] / 2 ^ 32 :: [1, 2, 3])
    (by decide) (by decide)
  refine ⟨h.1, h.2.1.mpr ?_⟩
  decide

/-! ## Checkpoint selection (apfsck/super.c, `read_latest_super`) -/

/-- `nx_o.o_oid` of a container-superblock block. -/
def nxOid (b : List Nat) : Nat := blkWord b 2 + blkWord b 3 * 2 ^ 32

/-- `nx_o.o_xid` of a container-superblock block. -/
def nxXid (b : List Nat) : Nat := blkWord b 4 + blkWord b 5 * 2 ^ 32

/-- `nx_magic` of a container-superblock block (first field after the
object header). -/
def nxMagicOk (b : List Nat) : Bool := blkWord b 8 == APFS_NX_MAGIC

/-- One iteration of the `read_latest_super` scan: skip the block unless its
magic matches, its xid improves on the best so far, and its checksum
verifies; otherwise it becomes the new candidate.  State is
`(best xid so far, best candidate so far)`. -/
def latestStep (st : Nat × Option (List Nat)) (cur : List Nat) :
    Nat × Option (List Nat) :=
  if ¬ nxMagicOk cur then st
  else if nxXid cur ≤ st.1 then st
  else if ¬ objVerifyCsum cur then st
  else (nxXid cur, some cur)

/-- `read_latest_super` (super.c): scan every block of the checkpoint
descriptor ring `[base, base + blocks)` on the device and keep the valid
superblock with the greatest xid; `none` models the
`"no valid superblock."` report. -/
def readLatestSuper (device : Nat → List Nat) (base blocks : Nat) :
    Option (List Nat) :=
  (((List.range blocks).map (fun i => device (base + i))).foldl
    latestStep (0, none)).2

theorem latestStep_mono (st : Nat × Option (List Nat)) (c : List Nat) :
    st.1 ≤ (latestStep st c).1 := by
  unfold latestStep
  split
  · exact le_refl _
  · split
    · exact le_refl _
    · split
      · exact le_refl _
      · rename_i hx _
        exact le_of_lt (lt_of_not_le hx)

theorem latestStep_ge (st : Nat × Option (List Nat)) (c : List Nat)
    (hm : nxMagicOk c) (hc : objVerifyCsum c) :
    nxXid c ≤ (latestStep st c).1 := by
  unfold latestStep
  split
  · simp_all
  · split
    · rename_i hx
      exact hx
    · simp [hc]

theorem latestStep_cases (st : Nat × Option (List Nat)) (c : List Nat) :
    latestStep st c = st ∨
    (latestStep st c = (nxXid c, some c) ∧ nxMagicOk c ∧ objVerifyCsum c) := by
  unfold latestStep
  split
  · exact Or.inl rfl
  · split
    · exact Or.inl rfl
    · split
      · exact Or.inl rfl
      · rename_i hm _ hc
        exact Or.inr ⟨rfl, by simpa using hm, by simpa using hc⟩

theorem latestFold_spec (l : List (List Nat)) : ∀ st : Nat × Option (List Nat),
    st.1 ≤ (l.foldl latestStep st).1 ∧
    ((l.foldl latestStep st).2 = st.2 ∧ (l.foldl latestStep st).1 = st.1 ∨
      ∃ b ∈ l, (l.foldl latestStep st).2 = some b ∧
        (l.foldl latestStep st).1 = nxXid b ∧
        nxMagicOk b ∧ objVerifyCsum b) ∧
    (∀ b ∈ l, nxMagicOk b → objVerifyCsum b →
      nxXid b ≤ (l.foldl latestStep st).1) := by
  induction l with
  | nil => intro st; refine ⟨le_refl _, Or.inl ⟨rfl, rfl⟩, ?_⟩; simp
  | cons c l ih =>
    intro st
    have hstep : List.foldl latestStep st (c :: l)
        = List.foldl latestStep (latestStep st c) l := rfl
    rcases ih (latestStep st c) with ⟨hmono, hcase, hmax⟩
    rw [hstep]
    rcases latestStep_cases st c with hs | ⟨hs, hm, hc⟩
    · rw [hs] at hmono hcase hmax ⊢
      refine ⟨hmono, ?_, ?_⟩
      · rcases hcase with h | ⟨b, hb, h⟩
        · exact Or.inl h
        · exact Or.inr ⟨b, List.mem_cons_of_mem c hb, h⟩
      · intro b hb h1 h2
        rcases List.mem_cons.mp hb with rfl | hb'
        · have hg := latestStep_ge st b h1 h2
          rw [hs] at hg
          exact le_trans hg hmono
        · exact hmax b hb' h1 h2
    · rw [hs] at hmono hcase hmax ⊢
      have hst : st.1 ≤ nxXid c := by
        have := latestStep_mono st c
        rw [hs] at this
        exact this
      refine ⟨le_trans hst hmono, ?_, ?_⟩
      · rcases hcase with ⟨h2, h1⟩ | ⟨b, hb, h⟩
        · exact Or.inr ⟨c, List.mem_cons_self c l, h2, h1, hm, hc⟩
        · exact Or.inr ⟨b, List.mem_cons_of_mem c hb, h⟩
      · intro b hb h1 h2
        rcases List.mem_cons.mp hb with rfl | hb'
        · exact hmono
        · exact hmax b hb' h1 h2

/-- C3, amended.  `read_latest_super` visits every block of the descriptor
ring `[base, base + blocks)` and returns a candidate from the ring whose
magic and checksum are valid (the object id is not examined here) and whose
xid is greatest among all ring blocks with valid magic and checksum; if no
ring block qualifies it fails with the `"no valid superblock."` report for
the checkpoint descriptor area. -/
theorem readLatestSuper_picks_greatest_valid_xid
    (device : Nat → List Nat) (base blocks : Nat) :
    (∀ b, readLatestSuper device base blocks = some b →
      (∃ i < blocks, device (base + i) = b) ∧
      nxMagicOk b ∧ objVerifyCsum b ∧
      (∀ i < blocks, nxMagicOk (device (base + i)) →
        objVerifyCsum (device (base + i)) →
        nxXid (device (base + i)) ≤ nxXid b)) ∧
    (readLatestSuper device base blocks = none →
      ∀ i < blocks, ¬ (nxMagicOk (device (base + i)) ∧
        objVerifyCsum (device (base + i)) ∧ 0 < nxXid (device (base + i)))) := by
  have h := latestFold_spec
    ((List.range blocks).map (fun i => device (base + i))) (0, none)
  rcases h with ⟨-, hcase, hmax⟩
  constructor
  · intro b hb
    unfold readLatestSuper at hb
    rcases hcase with ⟨h2, -⟩ | ⟨c, hc, h2, h1, hmm, hcc⟩
    · rw [hb] at h2; cases h2
    · rw [hb] at h2
      injection h2 with h2; subst h2
      rcases List.mem_map.mp hc with ⟨i, hi, rfl⟩
      refine ⟨⟨i, List.mem_range.mp hi, rfl⟩, hmm, hcc, ?_⟩
      intro j hj hjm hjc
      have := hmax (device (base + j))
        (List.mem_map.mpr ⟨j, List.mem_range.mpr hj, rfl⟩) hjm hjc
      omega
  · intro hnone i hi ⟨h1, h2, h3⟩
    unfold readLatestSuper at hnone
    rcases hcase with ⟨-, hz⟩ | ⟨c, -, h2', -⟩
    · have := hmax (device (base + i))
        (List.mem_map.mpr ⟨i, List.mem_range.mpr hi, rfl⟩) h1 h2
      omega
    · rw [hnone] at h2'; cases h2'

/-- A synthetic container-superblock block with the given object id and
transaction id, correct magic, and a correct Fletcher checksum. -/
def mkNxBlk (oid xid : Nat) : List Nat :=
  fletcher64 [oid, 0, xid, 0, 0, 0, APFS_NX_MAGIC] % 2 ^ 32 ::
    fletcher64 [oid, 0, xid, 0, 0, 0, APFS_NX_MAGIC] / 2 ^ 32 ::
    [oid, 0, xid, 0, 0, 0, APFS_NX_MAGIC]

/-- Counterexample to C3 as stated: `read_latest_super` never checks the
object id.  In a two-block ring where block `base` has valid magic and
checksum but reserved-invalid object id 999 and xid 10, and block
`base + 1` is fully valid (object id 1) with xid 5, the checker selects the
bad-oid block, not the greatest-xid block among those whose magic, checksum
*and object id* are valid. -/
theorem readLatestSuper_ignores_object_id :
    readLatestSuper
        (fun bno => if bno = 100 then mkNxBlk 999 10 else mkNxBlk 1 5) 100 2
      = some (mkNxBlk 999 10) ∧
    nxOid (mkNxBlk 999 10) ≠ APFS_OID_NX_SUPERBLOCK ∧
    nxMagicOk (mkNxBlk 1 5) ∧ objVerifyCsum (mkNxBlk 1 5) ∧
    nxOid (mkNxBlk 1 5) = APFS_OID_NX_SUPERBLOCK := by
  refine ⟨?_, by decide, by decide, by decide, by decide⟩
  decide

/-- Witness for C3's amended theorem at a concrete two-block ring: the
selected candidate indeed has valid magic and checksum. -/
theorem readLatestSuper_picks_greatest_valid_xid_witness :
    nxMagicOk (mkNxBlk 999 10) ∧ objVerifyCsum (mkNxBlk 999 10) := by
  have h := (readLatestSuper_picks_greatest_valid_xid
    (fun bno => if bno = 100 then mkNxBlk 999 10 else mkNxBlk 1 5) 100 2).1
    (mkNxBlk 999 10) (by decide)
  exact ⟨h.2.1, h.2.2.1⟩

/-! ## Superblock comparison against the block-zero copy
(apfsck/super.c, `main_super_compare`)

Here a block is viewed as its byte sequence, `Nat → Nat`, because the
source compares raw byte ranges with `memcmp`. -/

/-- A 64-bit little-endian field of a byte array. -/
def readLE64At (b : Nat → Nat) (off : Nat) : Nat :=
  b off + b (off + 1) * 2 ^ 8 + b (off + 2) * 2 ^ 16 + b (off + 3) * 2 ^ 24 +
    b (off + 4) * 2 ^ 32 + b (off + 5) * 2 ^ 40 + b (off + 6) * 2 ^ 48 +
    b (off + 7) * 2 ^ 56

/-- `memcmp(d + lo, c + lo, hi - lo) == 0`: the byte ranges `[lo, hi)` of the
two blocks coincide. -/
def memcmpRange (d c : Nat → Nat) (lo hi : Nat) : Bool :=
  (List.range' lo (hi - lo)).all fun i => d i == c i

theorem memcmpRange_iff (d c : Nat → Nat) (lo hi : Nat) :
    memcmpRange d c lo hi = true ↔ ∀ i, lo ≤ i → i < hi → d i = c i := by
  unfold memcmpRange
  rw [List.all_eq_true]
  constructor
  · intro h i h1 h2
    have : i ∈ List.range' lo (hi - lo) := by
      rw [List.mem_range'_1]
      exact ⟨h1, by omega⟩
    simpa using h i this
  · intro h i hi
    rw [List.mem_range'_1] at hi
    simpa using h i hi.1 (by omega)

/-- The result of `main_super_compare`: a `report_crash` (crash marker), a
`report` of `"fields don't match the checkpoint."`, or silence. -/
inductive SuperCompareResult where
  | crashMarker
  | fieldsMismatch
  | clean
  deriving DecidableEq, Repr

/-- `main_super_compare` (super.c): if the two copies disagree on the xid
the block-zero copy is a leftover from a crash; otherwise compare the byte
ranges `[0x08, 0x3D8)`, `[0x4D8, 0x4F0)` and `[0x4F8, 4096)` and report
corruption on any difference. -/
def mainSuperCompare (desc copy : Nat → Nat) : SuperCompareResult :=
  if readLE64At copy 0x10 ≠ readLE64At desc 0x10 then .crashMarker
  else if ¬ memcmpRange desc copy 0x08 0x3D8 ∨
      ¬ memcmpRange desc copy 0x4D8 0x4F0 ∨
      ¬ memcmpRange desc copy 0x4F8 4096 then .fieldsMismatch
  else .clean

/-- C4, amended.  After the winning checkpoint superblock is chosen it is
compared against the block-zero copy: a differing xid is the crash marker;
with equal xids the bytes are compared except the checksum `[0x00, 0x08)`,
the counters region `[0x3D8, 0x4D8)` and the flags region `[0x4F0, 0x4F8)`,
and any divergence in a compared range is reported as corruption
(`"fields don't match the checkpoint."`) — not as a crash marker. -/
theorem mainSuperCompare_tolerated_regions (d c : Nat → Nat) :
    (mainSuperCompare d c = .clean ↔
      (readLE64At c 0x10 = readLE64At d 0x10 ∧
        (∀ i, 0x08 ≤ i → i < 0x3D8 → d i = c i) ∧
        (∀ i, 0x4D8 ≤ i → i < 0x4F0 → d i = c i) ∧
        (∀ i, 0x4F8 ≤ i → i < 4096 → d i = c i))) ∧
    (mainSuperCompare d c = .crashMarker ↔
      readLE64At c 0x10 ≠ readLE64At d 0x10) := by
  refine ⟨⟨?_, ?_⟩, ⟨?_, ?_⟩⟩
  · intro h
    unfold mainSuperCompare at h
    by_cases hx : readLE64At c 0x10 = readLE64At d 0x10
    · refine ⟨hx, ?_, ?_, ?_⟩ <;> rw [← memcmpRange_iff] <;> by_contra hb <;>
        simp [hx, hb] at h
    · simp [hx] at h
  · rintro ⟨hx, h1, h2, h3⟩
    have b1 := (memcmpRange_iff d c 0x08 0x3D8).mpr h1
    have b2 := (memcmpRange_iff d c 0x4D8 0x4F0).mpr h2
    have b3 := (memcmpRange_iff d c 0x4F8 4096).mpr h3
    unfold mainSuperCompare
    simp [hx, b1, b2, b3]
  · intro h
    unfold mainSuperCompare at h
    by_cases hx : readLE64At c 0x10 = readLE64At d 0x10
    · exfalso
      revert h
      simp only [hx, ne_eq, not_true_eq_false, if_false]
      split <;> simp
    · simpa using hx
  · intro hx
    unfold mainSuperCompare
    simp [hx]

/-- Counterexample to C4 as stated: a divergence outside the two tolerated
regions need not be a crash marker.  A copy differing from the winner only
at byte 5 (inside the checksum field, outside both regions named by the
claim) is accepted silently, and a copy differing at byte 0x100 draws the
corruption report `"fields don't match the checkpoint."`, not the crash
marker. -/
theorem mainSuperCompare_divergence_not_crash :
    mainSuperCompare (fun _ => 0) (fun i => if i = 5 then 1 else 0)
        = .clean ∧
    (fun _ : Nat => (0 : Nat)) 5 ≠ (fun i : Nat => if i = 5 then 1 else 0) 5 ∧
    ¬ (0x3D8 ≤ 5 ∧ 5 < 0x4D8) ∧ ¬ (0x4F0 ≤ 5 ∧ 5 < 0x4F8) ∧
    mainSuperCompare (fun _ => 0) (fun i => if i = 0x100 then 1 else 0)
        = .fieldsMismatch := by
  refine ⟨?_, by norm_num, by norm_num, by norm_num, ?_⟩
  · have hx : readLE64At (fun i : Nat => if i = 5 then 1 else 0) 0x10
        = readLE64At (fun _ : Nat => 0) 0x10 := by
      norm_num [readLE64At]
    have h1 := (memcmpRange_iff (fun _ : Nat => 0)
      (fun i : Nat => if i = 5 then 1 else 0) 0x08 0x3D8).mpr
      (fun i hi1 hi2 => by simp [show i ≠ 5 by omega])
    have h2 := (memcmpRange_iff (fun _ : Nat => 0)
      (fun i : Nat => if i = 5 then 1 else 0) 0x4D8 0x4F0).mpr
      (fun i hi1 hi2 => by simp [show i ≠ 5 by omega])
    have h3 := (memcmpRange_iff (fun _ : Nat => 0)
      (fun i : Nat => if i = 5 then 1 else 0) 0x4F8 4096).mpr
      (fun i hi1 hi2 => by simp [show i ≠ 5 by omega])
    unfold mainSuperCompare
    simp [hx, h1, h2, h3]
  · have hx : readLE64At (fun i : Nat => if i = 0x100 then 1 else 0) 0x10
        = readLE64At (fun _ : Nat => 0) 0x10 := by
      norm_num [readLE64At]
    have hdiff : ¬ memcmpRange (fun _ : Nat => 0)
        (fun i : Nat => if i = 0x100 then 1 else 0) 0x08 0x3D8 = true := by
      intro hb
      have := (memcmpRange_iff _ _ _ _).mp hb 0x100 (by omega) (by omega)
      simp at this
    unfold mainSuperCompare
    simp [hx, hdiff]
/-! ## B-tree subtree walk and key ordering (apfsck/btree.c, `parse_subtree`)

The in-memory `struct key` for record types without a name component
(`id`, `type`, `number`); `keycmp` (key.c) on such keys compares the three
fields in order and never reaches the name comparison. -/

structure CKey where
  id : Nat
  typ : Nat
  number : Nat
  deriving DecidableEq, Repr

/-- `keycmp` (key.c, lines 99-117) on nameless keys. -/
def keycmp (k1 k2 : CKey) : Int :=
  if k1.id ≠ k2.id then if k1.id < k2.id then -1 else 1
  else if k1.typ ≠ k2.typ then if k1.typ < k2.typ then -1 else 1
  else if k1.number ≠ k2.number then if k1.number < k2.number then -1 else 1
  else 0

theorem keycmp_le_of_not_gt {a b : CKey} (h : ¬ keycmp a b > 0) :
    keycmp a b ≤ 0 := by omega

theorem keycmp_refl (a : CKey) : keycmp a a = 0 := by
  simp [keycmp]

/-- A parsed B-tree as `parse_subtree` walks it: a leaf holds its record
keys in table-of-contents order; a nonleaf node holds, per record, the key
and the already-resolved child node (the block/oid resolution and the
record-value size checks of the source are not modelled here). -/
inductive CNode where
  | leaf (keys : List CKey)
  | internal (recs : List (CKey × CNode))

inductive BErr where
  | keysOutOfOrder
  | leafKeysRepeated
  deriving DecidableEq, Repr

/-- The per-record loop of `parse_subtree` over a leaf node: report
`"keys are out of order."` when the key decreases below `last_key`, report
`"leaf keys are repeated."` when a key other than the node's first equals
`last_key`; `first` records whether `i == 0`. -/
def parseLeafKeys : List CKey → CKey → Bool → Except BErr CKey
  | [], last, _ => .ok last
  | k :: ks, last, first =>
      if keycmp last k > 0 then .error .keysOutOfOrder
      else if first = false ∧ keycmp last k = 0 then .error .leafKeysRepeated
      else parseLeafKeys ks k false

mutual

/-- `parse_subtree` (btree.c, lines 213-282): depth-first left-to-right
walk threading `last_key` through the whole tree. -/
def parseSubtree : CNode → CKey → Except BErr CKey
  | .leaf keys, last => parseLeafKeys keys last true
  | .internal recs, last => parseRecs recs last

/-- The per-record loop of `parse_subtree` over a nonleaf node: check the
order against `last_key` (the repeated-leaf check is skipped, the node not
being a leaf), then recurse into the child. -/
def parseRecs : List (CKey × CNode) → CKey → Except BErr CKey
  | [], last => .ok last
  | (k, child) :: rest, last =>
      if keycmp last k > 0 then .error .keysOutOfOrder
      else
        match parseSubtree child k with
        | .error e => .error e
        | .ok last2 => parseRecs rest last2

end

mutual

/-- All record keys of a subtree in depth-first left-to-right encounter
order (each nonleaf record key followed by its subtree's keys). -/
def dfsKeys : CNode → List CKey
  | .leaf keys => keys
  | .internal recs => dfsKeysRecs recs

def dfsKeysRecs : List (CKey × CNode) → List CKey
  | [] => []
  | (k, child) :: rest => k :: (dfsKeys child ++ dfsKeysRecs rest)

end

mutual

/-- The key lists of all leaf nodes of a subtree. -/
def leafKeyLists : CNode → List (List CKey)
  | .leaf keys => [keys]
  | .internal recs => leafKeyListsRecs recs

def leafKeyListsRecs : List (CKey × CNode) → List (List CKey)
  | [] => []
  | (_, child) :: rest => leafKeyLists child ++ leafKeyListsRecs rest

end

/-- The last element of a list, or `a` if the list is empty. -/
def lastOr : List CKey → CKey → CKey
  | [], a => a
  | b :: l, _ => lastOr l b

theorem lastOr_append (l1 l2 : List CKey) (a : CKey) :
    lastOr (l1 ++ l2) a = lastOr l2 (lastOr l1 a) := by
  induction l1 generalizing a with
  | nil => rfl
  | cons b l1 ih => simp [lastOr, ih]

theorem chainLe_append_key (R : CKey → CKey → Prop) (a : CKey)
    (l1 l2 : List CKey) (h1 : List.Chain' R (a :: l1))
    (h2 : List.Chain' R (lastOr l1 a :: l2)) :
    List.Chain' R (a :: l1 ++ l2) := by
  induction l1 generalizing a with
  | nil => simpa using h2
  | cons b l1 ih =>
    rw [List.chain'_cons] at h1
    rw [List.cons_append, List.cons_append, List.chain'_cons]
    exact ⟨h1.1, ih b h1.2 h2⟩

theorem parseLeafKeys_spec (keys : List CKey) :
    ∀ (last : CKey) (first : Bool) (fink : CKey),
    parseLeafKeys keys last first = .ok fink →
    List.Chain' (fun a b => keycmp a b ≤ 0) (last :: keys) ∧
    fink = lastOr keys last ∧
    (first = true → List.Chain' (fun a b => keycmp a b < 0) keys) ∧
    (first = false →
      List.Chain' (fun a b => keycmp a b < 0) (last :: keys)) := by
  induction keys with
  | nil =>
    intro last first fink h
    injection h with h
    subst h
    exact ⟨List.chain'_singleton _, rfl, fun _ => List.chain'_nil,
      fun _ => List.chain'_singleton _⟩
  | cons k ks ih =>
    intro last first fink h
    unfold parseLeafKeys at h
    by_cases hgt : keycmp last k > 0
    · simp [hgt] at h
    · rw [if_neg hgt] at h
      by_cases heq : first = false ∧ keycmp last k = 0
      · rw [if_pos heq] at h
        cases h
      · rw [if_neg heq] at h
        rcases ih k false fink h with ⟨hchain, hfin, _, hstrict⟩
        have hle : keycmp last k ≤ 0 := keycmp_le_of_not_gt hgt
        refine ⟨List.chain'_cons.mpr ⟨hle, hchain⟩, hfin, ?_, ?_⟩
        · intro _
          exact hstrict rfl
        · intro hf
          have hne : keycmp last k ≠ 0 := by
            intro h0
            exact heq ⟨hf, h0⟩
          exact List.chain'_cons.mpr ⟨by omega, hstrict rfl⟩

mutual

theorem parseSubtree_spec : ∀ (t : CNode) (last fink : CKey),
    parseSubtree t last = .ok fink →
    List.Chain' (fun a b => keycmp a b ≤ 0) (last :: dfsKeys t) ∧
    fink = lastOr (dfsKeys t) last ∧
    (∀ l ∈ leafKeyLists t, List.Chain' (fun a b => keycmp a b < 0) l)
  | .leaf keys, last, fink, h => by
    rcases parseLeafKeys_spec keys last true fink h with ⟨h1, h2, h3, -⟩
    refine ⟨h1, h2, ?_⟩
    intro l hl
    simp only [leafKeyLists] at hl
    rcases List.mem_singleton.mp hl with rfl
    exact h3 rfl
  | .internal recs, last, fink, h => by
    rcases parseRecs_spec recs last fink h with ⟨h1, h2, h3⟩
    exact ⟨h1, h2, h3⟩

theorem parseRecs_spec : ∀ (recs : List (CKey × CNode)) (last fink : CKey),
    parseRecs recs last = .ok fink →
    List.Chain' (fun a b => keycmp a b ≤ 0) (last :: dfsKeysRecs recs) ∧
    fink = lastOr (dfsKeysRecs recs) last ∧
    (∀ l ∈ leafKeyListsRecs recs,
      List.Chain' (fun a b => keycmp a b < 0) l)
  | [], last, fink, h => by
    injection h with h
    subst h
    refine ⟨List.chain'_singleton _, rfl, ?_⟩
    intro l hl
    simp [leafKeyListsRecs] at hl
  | (k, child) :: rest, last, fink, h => by
    unfold parseRecs at h
    by_cases hgt : keycmp last k > 0
    · simp [hgt] at h
    · rw [if_neg hgt] at h
      rcases hch : parseSubtree child k with e | last2
      · rw [hch] at h
        cases h
      · rw [hch] at h
        rcases parseSubtree_spec child k last2 hch with ⟨c1, c2, c3⟩
        rcases parseRecs_spec rest last2 fink h with ⟨r1, r2, r3⟩
        have hle : keycmp last k ≤ 0 := keycmp_le_of_not_gt hgt
        refine ⟨?_, ?_, ?_⟩
        · show List.Chain' _ (last :: k :: (dfsKeys child ++ dfsKeysRecs rest))
          rw [List.chain'_cons]
          refine ⟨hle, ?_⟩
          refine chainLe_append_key _ k (dfsKeys child) (dfsKeysRecs rest) c1 ?_
          rw [← c2]
          exact r1
        · show fink = lastOr (k :: (dfsKeys child ++ dfsKeysRecs rest)) last
          show fink = lastOr (dfsKeys child ++ dfsKeysRecs rest) k
          rw [lastOr_append, ← c2]
          exact r2
        · intro l hl
          simp only [leafKeyListsRecs, List.mem_append] at hl
          rcases hl with hl | hl
          · exact c3 l hl
          · exact r3 l hl

end

/-- C5, amended.  For every B-tree walked in full by `parse_subtree`
(container omap, volume omap, catalog): the sequence of keys encountered in
depth-first left-to-right order never decreases under `keycmp` (a decrease
is reported as `"keys are out of order."`), and no two leaf records *in the
same leaf node* compare equal (reported as `"leaf keys are repeated."`), so
each leaf node's keys strictly ascend; in particular a leaf node holding
two records with identical keys is rejected.  Equal leaf keys split across
two *different* leaf nodes are not detected. -/
theorem parseSubtree_keys_ascend_and_leaf_keys_unique_per_node
    (t : CNode) (last fink lastrep krep : CKey)
    (hok : parseSubtree t last = .ok fink)
    (hrep : keycmp lastrep krep ≤ 0) :
    List.Chain' (fun a b => keycmp a b ≤ 0) (last :: dfsKeys t) ∧
    (∀ l ∈ leafKeyLists t, List.Chain' (fun a b => keycmp a b < 0) l) ∧
    parseSubtree (.leaf [krep, krep]) lastrep = .error .leafKeysRepeated := by
  rcases parseSubtree_spec t last fink hok with ⟨h1, -, h3⟩
  refine ⟨h1, h3, ?_⟩
  show parseLeafKeys [krep, krep] lastrep true = .error .leafKeysRepeated
  unfold parseLeafKeys
  rw [if_neg (by omega)]
  rw [if_neg (by simp)]
  unfold parseLeafKeys
  rw [if_neg (by rw [keycmp_refl]; omega)]
  rw [if_pos (by rw [keycmp_refl]; exact ⟨rfl, rfl⟩)]

/-- Witness for C5's amended theorem at a concrete two-level tree. -/
theorem parseSubtree_keys_ascend_witness :
    List.Chain' (fun a b => keycmp a b ≤ 0)
      (CKey.mk 0 0 0 ::
        dfsKeys (.internal [(⟨1, 0, 0⟩, .leaf [⟨1, 0, 0⟩, ⟨2, 0, 0⟩])])) ∧
    parseSubtree (.leaf [⟨7, 0, 0⟩, ⟨7, 0, 0⟩]) ⟨5, 0, 0⟩
      = .error .leafKeysRepeated := by
  have h := parseSubtree_keys_ascend_and_leaf_keys_unique_per_node
    (.internal [(⟨1, 0, 0⟩, .leaf [⟨1, 0, 0⟩, ⟨2, 0, 0⟩])])
    ⟨0, 0, 0⟩ ⟨2, 0, 0⟩ ⟨5, 0, 0⟩ ⟨7, 0, 0⟩ (by rfl) (by decide)
  exact ⟨h.1, h.2.2⟩

/-- Counterexample to C5 as stated: two leaf records with equal keys that
sit in *different* leaf nodes (each the first record of its node) pass
`parse_subtree` without any report, because the repeated-leaf check is
skipped at record index 0 and equal keys do not count as out of order. -/
theorem parseSubtree_misses_repeats_across_nodes :
    parseSubtree
        (.internal [(⟨1, 0, 0⟩, .leaf [⟨1, 0, 0⟩]),
                    (⟨1, 0, 0⟩, .leaf [⟨1, 0, 0⟩])]) ⟨0, 0, 0⟩
      = .ok ⟨1, 0, 0⟩ ∧
    leafKeyLists
        (.internal [(⟨1, 0, 0⟩, .leaf [⟨1, 0, 0⟩]),
                    (⟨1, 0, 0⟩, .leaf [⟨1, 0, 0⟩])])
      = [[⟨1, 0, 0⟩], [⟨1, 0, 0⟩]] := by
  exact ⟨by rfl, by rfl⟩

/-! ## Object-map lookup (apfsck/btree.c `omap_lookup_block`, `btree_query`,
`node_query`; apfsck/key.c `read_omap_key`, `init_omap_key`)

An object-map B-tree: leaves hold `(apfs_omap_key, apfs_omap_val)` records,
nonleaf nodes hold a key and the already-resolved child (the omap maps node
ids to block numbers directly, `QUERY_OMAP`). -/

structure OmapKey where
  oid : Nat
  xid : Nat
  deriving DecidableEq, Repr

structure OmapVal where
  flags : Nat
  size : Nat
  paddr : Nat
  deriving DecidableEq, Repr

inductive OTree where
  | leaf (recs : List (OmapKey × OmapVal))
  | internal (recs : List (OmapKey × OTree))

/-- `read_omap_key` (key.c, lines 21-32): only the oid is read into the
in-memory key; `type`, `number` and `name` are zeroed — the record's xid is
ignored. -/
def readOmapKey (k : OmapKey) : CKey := ⟨k.oid, 0, 0⟩

/-- `init_omap_key` (key.h): the search key for an omap query holds the oid
alone. -/
def initOmapKey (oid : Nat) : CKey := ⟨oid, 0, 0⟩

theorem keycmp_eq_zero_iff {a b : CKey} :
    keycmp a b = 0 ↔ a = b := by
  constructor
  · intro h
    unfold keycmp at h
    cases a
    cases b
    split_ifs at h <;> simp_all
  · rintro rfl
    exact keycmp_refl a
/-- One probe of the `node_query` bisection (btree.c, lines 650-656): read
the key at `index2`, compare it with the target, and either exit the loop —
on an exact match, or when the window has closed (`left == right`) — or
hand the new state to `next`, the next loop trip.  `none` models the
out-of-bounds report of `node_locate_key`. -/
def bisectStep (keys : List CKey) (target : CKey)
    (next : Int → Int → Int → Int → Option (Nat × Int))
    (left2 right2 index2 : Int) : Option (Nat × Int) :=
  match keys.get? index2.toNat with
  | none => none
  | some curr =>
      if keycmp curr target = 0 then some (index2.toNat, keycmp curr target)
      else if left2 = right2 then some (index2.toNat, keycmp curr target)
      else next (keycmp curr target) left2 right2 index2

/-- The bisection loop of `node_query` (btree.c, lines 636-657) for a
single (non-`MULTIPLE`) query.  State: the last comparison result, the
`left`/`right` window and the current `index` (C `int`s, so `Int` here);
on `cmp > 0` the window moves to the left half (`-ENODATA` when it closes),
otherwise to the right half.  Every exit that found a record returns its
index together with the final comparison of that record's key against the
target.  The fuel bounds the loop trips; the shrinking window never
exhausts it on a real node. -/
def bisectLoop (keys : List CKey) (target : CKey) :
    Nat → Int → Int → Int → Int → Option (Nat × Int)
  | 0, _, _, _, _ => none
  | fuel + 1, cmp, left, right, index =>
      if cmp > 0 then
        if index - 1 < left then none
        else bisectStep keys target (bisectLoop keys target fuel)
          left (index - 1) ((left + (index - 1)) / 2)
      else bisectStep keys target (bisectLoop keys target fuel)
        index right ((index + right + 1) / 2)

/-- `node_query` for a single query: run the bisection from
`index = records`, then apply the exit checks — `cmp > 0` is `-ENODATA`,
and a non-exact match on a leaf fails an `EXACT` query. -/
def nodeQuery (keys : List CKey) (target : CKey) (isLeaf exact : Bool) :
    Option Nat :=
  match bisectLoop keys target (keys.length + 2) 1 0 0 (keys.length : Int) with
  | none => none
  | some (idx, cmp) =>
      if cmp > 0 then none
      else if cmp ≠ 0 ∧ isLeaf ∧ exact then none
      else some idx

/-- `btree_query` (btree.c) for a single `QUERY_OMAP | QUERY_EXACT` query,
descending from the root; the fuel models the depth-12 guard
(`"B-tree is too deep."`). -/
def btreeQueryOmap : Nat → OTree → CKey → Option (OmapKey × OmapVal)
  | 0, _, _ => none
  | _ + 1, .leaf recs, target =>
      match nodeQuery (recs.map fun r => readOmapKey r.1) target true true with
      | none => none
      | some idx => recs.get? idx
  | fuel + 1, .internal recs, target =>
      match nodeQuery (recs.map fun r => readOmapKey r.1) target false true with
      | none => none
      | some idx =>
          match recs.get? idx with
          | none => none
          | some (_, child) => btreeQueryOmap fuel child target

/-- `omap_lookup_block` (btree.c, lines 453-473): an `EXACT` query for the
oid alone; on success return the whole record (the C function extracts
`ov_paddr` from it via `bno_from_query`); `none` is the
`"record missing for id"` report. -/
def omapLookupRec (tbl : OTree) (id : Nat) : Option (OmapKey × OmapVal) :=
  btreeQueryOmap 12 tbl (initOmapKey id)

/-- `omap_lookup_block` proper: the block number of the found record. -/
def omapLookupBlock (tbl : OTree) (id : Nat) : Option Nat :=
  (omapLookupRec tbl id).map fun r => r.2.paddr

theorem bisectStep_found (keys : List CKey) (target : CKey)
    (next : Int → Int → Int → Int → Option (Nat × Int))
    (hnext : ∀ (cmp l r i : Int) (idx : Nat) (c : Int),
      next cmp l r i = some (idx, c) →
      ∃ k, keys.get? idx = some k ∧ keycmp k target = c) :
    ∀ (l2 r2 i2 : Int) (idx : Nat) (c : Int),
    bisectStep keys target next l2 r2 i2 = some (idx, c) →
    ∃ k, keys.get? idx = some k ∧ keycmp k target = c := by
  intro l2 r2 i2 idx c h
  unfold bisectStep at h
  split at h
  · cases h
  · rename_i curr hk
    split at h
    · obtain ⟨h1, h2⟩ : i2.toNat = idx ∧ keycmp curr target = c := by
        simpa using h
      subst h1
      exact ⟨curr, hk, h2⟩
    · split at h
      · obtain ⟨h1, h2⟩ : i2.toNat = idx ∧ keycmp curr target = c := by
          simpa using h
        subst h1
        exact ⟨curr, hk, h2⟩
      · exact hnext _ _ _ _ idx c h

theorem bisectLoop_found (keys : List CKey) (target : CKey) :
    ∀ (fuel : Nat) (cmp left right index : Int) (idx : Nat) (c : Int),
    bisectLoop keys target fuel cmp left right index = some (idx, c) →
    ∃ k, keys.get? idx = some k ∧ keycmp k target = c := by
  intro fuel
  induction fuel with
  | zero => intro _ _ _ _ _ _ h; cases h
  | succ fuel ih =>
    intro cmp left right index idx c h
    unfold bisectLoop at h
    split at h
    · split at h
      · cases h
      · exact bisectStep_found keys target _ ih _ _ _ idx c h
    · exact bisectStep_found keys target _ ih _ _ _ idx c h

/-- On success with `EXACT` on a leaf, `node_query` found a key that
compares equal to the target. -/
theorem nodeQuery_leaf_exact (keys : List CKey) (target : CKey) (idx : Nat)
    (h : nodeQuery keys target true true = some idx) :
    ∃ k, keys.get? idx = some k ∧ keycmp k target = 0 := by
  unfold nodeQuery at h
  split at h
  · cases h
  · rename_i i c hb
    rcases bisectLoop_found keys target _ _ _ _ _ _ _ hb with ⟨k, hk, hc⟩
    split at h
    · cases h
    · split at h
      · cases h
      · rename_i hgt hne
        injection h with h
        subst h
        have hc0 : c = 0 := by
          by_contra hz
          exact hne ⟨hz, rfl, rfl⟩
        exact ⟨k, hk, by omega⟩

theorem btreeQueryOmap_succ_leaf (fuel : Nat)
    (recs : List (OmapKey × OmapVal)) (target : CKey) :
    btreeQueryOmap (fuel + 1) (.leaf recs) target
      = match nodeQuery (recs.map fun r => readOmapKey r.1) target true true
          with
        | none => none
        | some idx => recs.get? idx := rfl

theorem btreeQueryOmap_succ_internal (fuel : Nat)
    (recs : List (OmapKey × OTree)) (target : CKey) :
    btreeQueryOmap (fuel + 1) (.internal recs) target
      = match nodeQuery (recs.map fun r => readOmapKey r.1) target false true
          with
        | none => none
        | some idx =>
            match recs.get? idx with
            | none => none
            | some (_, child) => btreeQueryOmap fuel child target := rfl

theorem btreeQueryOmap_oid : ∀ (fuel : Nat) (t : OTree) (target : CKey)
    (r : OmapKey × OmapVal), btreeQueryOmap fuel t target = some r →
    r.1.oid = target.id := by
  intro fuel
  induction fuel with
  | zero => intro t target r h; cases h
  | succ fuel ih =>
    intro t target r h
    cases t with
    | leaf recs =>
      rw [btreeQueryOmap_succ_leaf] at h
      rcases hq : nodeQuery (recs.map fun r => readOmapKey r.1) target
          true true with - | idx
      · rw [hq] at h
        cases h
      · rw [hq] at h
        have h2 : recs.get? idx = some r := h
        rcases nodeQuery_leaf_exact _ _ _ hq with ⟨k, hk, hc⟩
        rw [List.get?_map, h2] at hk
        injection hk with hk
        have hkt : k = target := keycmp_eq_zero_iff.mp hc
        rw [← hk] at hkt
        have hkt2 : readOmapKey r.1 = target := hkt
        exact congrArg CKey.id hkt2
    | internal recs =>
      rw [btreeQueryOmap_succ_internal] at h
      rcases hq : nodeQuery (recs.map fun r => readOmapKey r.1) target
          false true with - | idx
      · rw [hq] at h
        cases h
      · rw [hq] at h
        have h2 : (match recs.get? idx with
            | none => none
            | some (_, child) => btreeQueryOmap fuel child target)
              = some r := h
        rcases hrec : recs.get? idx with - | p
        · rw [hrec] at h2
          cases h2
        · rw [hrec] at h2
          rcases p with ⟨k2, child⟩
          exact ih child target r h2

/-- C2, amended.  A successful object-map lookup (`omap_lookup_block`, an
`EXACT` single query) returns a record whose key oid equals the requested
oid, and hands back that record's `ov_paddr`.  No transaction id takes part
in the lookup: `read_omap_key` and `init_omap_key` zero everything but the
oid, so the returned record's xid is neither compared with the requested
xid nor maximized over. -/
theorem omapLookup_returns_requested_oid
    (tbl : OTree) (id : Nat) (r : OmapKey × OmapVal)
    (h : omapLookupRec tbl id = some r) :
    r.1.oid = id ∧ omapLookupBlock tbl id = some r.2.paddr := by
  refine ⟨btreeQueryOmap_oid 12 tbl (initOmapKey id) r h, ?_⟩
  unfold omapLookupBlock
  rw [h]
  rfl

/-- Witness for C2's amended theorem at a concrete one-record omap. -/
theorem omapLookup_returns_requested_oid_witness :
    (OmapKey.mk 5 100).oid = 5 ∧
    omapLookupBlock (.leaf [(⟨5, 100⟩, ⟨0, 16, 7⟩)]) 5 = some 7 := by
  have h := omapLookup_returns_requested_oid
    (.leaf [(⟨5, 100⟩, ⟨0, 16, 7⟩)]) 5 (⟨5, 100⟩, ⟨0, 16, 7⟩) (by rfl)
  exact ⟨h.1, h.2⟩

/-- Counterexample to C2 as stated: in an omap holding one record with
oid 5 and xid 100, a lookup for oid 5 with the container at xid 7 succeeds
and returns that record, whose xid 100 is *not* `≤` the requested xid 7 —
`omap_lookup_block` takes no xid argument at all, so the `xid ≤ requested`
bound of the claim does not hold. -/
theorem omapLookup_ignores_xid :
    omapLookupRec (.leaf [(⟨5, 100⟩, ⟨0, 16, 7⟩)]) 5
      = some (⟨5, 100⟩, ⟨0, 16, 7⟩) ∧
    ¬ ((OmapKey.mk 5 100).xid ≤ 7) := by
  exact ⟨by rfl, by decide⟩

/-- Witness for C4's amended theorem: two identical blocks compare clean. -/
theorem mainSuperCompare_tolerated_regions_witness :
    mainSuperCompare (fun _ => 0) (fun _ => 0) = .clean := by
  exact (mainSuperCompare_tolerated_regions (fun _ => 0) (fun _ => 0)).1.mpr
    ⟨rfl, fun i h1 h2 => rfl, fun i h1 h2 => rfl, fun i h1 h2 => rfl⟩

/-! ## The inode audit table and its drain-time checks
(apfsck/inode.c `get_inode`, `parse_inode_record`, `check_inode_stats`;
apfsck/dir.c `parse_dentry_record`)

The hash table is viewed through its lookup semantics: `get_inode` returns
the entry for an id, a zeroed (`calloc`) record on first reference, so the
table is a total map from ids to records (C10 treats the bucket-list
structure itself).  Catalog-record parsing below models every update of the
table and every `report` that guards it; purely local validation that
touches no table state (xfield layout, padding, internal-flag masks, device
ids) is outside this model. -/

def APFS_ROOT_DIR_PARENT : Nat := 1
def APFS_MIN_USER_INO_NUM : Nat := 16
def S_IFMT : Nat := 0o170000
def S_IFSOCK : Nat := 0o140000
def S_IFLNK : Nat := 0o120000
def S_IFREG : Nat := 0o100000
def S_IFBLK : Nat := 0o060000
def S_IFDIR : Nat := 0o040000
def S_IFCHR : Nat := 0o020000
def S_IFIFO : Nat := 0o010000
def XATTR_BMAP_SYMLINK : Nat := 0x01
/-- Modelled from the spec: `XATTR_BMAP_RSRC_FORK`, used by inode.c, is
declared in a header revision not present under src/; it is the next bit of
the system-xattr bitmap after the symlink bit. -/
def XATTR_BMAP_RSRC_FORK : Nat := 0x02
def APFS_INODE_HAS_RSRC_FORK : Nat := 0x4000

/-- In-memory `struct inode` (inode.h): `nlink` is the `nchildren`/`nlink`
union field read from the inode record; `childCount`/`linkCount` are the
fsck-measured counters. -/
structure InodeRec where
  seen : Bool := false
  mode : Nat := 0
  nlink : Nat := 0
  size : Nat := 0
  allocedSize : Nat := 0
  sparseBytes : Nat := 0
  flags : Nat := 0
  privateId : Nat := 0
  xattrBmap : Nat := 0
  childCount : Nat := 0
  linkCount : Nat := 0
  deriving DecidableEq, Repr

/-- In-memory `struct dstream` (per extents.c; the header under src/ is an
older revision without the orphan fields): declared stats `size`,
`allocedSize`, `refcnt`; measured stats `bytes`, `sparseBytes`,
`references`; `extents` is the `d_extents` list of physical addresses. -/
structure Dstream where
  id : Nat := 0
  objType : Nat := 0
  seen : Bool := false
  orphan : Bool := false
  refcnt : Nat := 0
  references : Nat := 0
  size : Nat := 0
  allocedSize : Nat := 0
  bytes : Nat := 0
  sparseBytes : Nat := 0
  logicStart : Nat := 0
  extents : List Nat := []
  deriving DecidableEq, Repr

/-- The inode table as `get_inode` exposes it: any id not yet inserted
reads as a `calloc`-zeroed record. -/
def Table : Type := Nat → InodeRec

def zeroTable : Table := fun _ => {}

/-- Point update of one table entry. -/
def updIno (t : Table) (ino : Nat) (f : InodeRec → InodeRec) : Table :=
  fun i => if i = ino then f (t i) else t i

inductive DErr where
  | parentMissing
  | parentNotDir
  | reservedFlags
  | modeMismatch
  | invalidDtype
  | inodeRepeated
  | invalidInodeNumber
  | badRootParent
  | reservedInodeNumber
  | invalidParent
  | rootParentForNonroot
  | reservedParent
  | invalidFileMode
  deriving DecidableEq, Repr

/-- A hashed dentry record, reduced to the fields the table updates read:
the parent cnid (from the key), the `file_id` and the `flags` (the dtype)
from the value. -/
structure Dentry where
  fileId : Nat
  parent : Nat
  flags : Nat
  deriving DecidableEq, Repr

/-- The tail of `parse_dentry_record` (dir.c, lines 110-121): dtype flag
check, consistency with the mode already on record, and folding the dtype
into the mode. -/
def finishDentry (d : Dentry) (t2 : Table) : Except DErr Table :=
  let dtype := d.flags &&& 0xF
  if dtype ≠ d.flags then .error .reservedFlags
  else
    let filetype := (t2 d.fileId).mode >>> 12
    if filetype ≠ 0 ∧ filetype ≠ dtype then .error .modeMismatch
    else if dtype = 0 then .error .invalidDtype
    else .ok (updIno t2 d.fileId fun r =>
      { r with mode := r.mode ||| (dtype <<< 12) })

/-- `parse_dentry_record` (dir.c, lines 86-124): bump the link count of the
`file_id` inode; when the parent is not the fake root-parent id, demand a
seen directory parent and bump its child count; then the dtype checks. -/
def parseDentryRecord (d : Dentry) (t : Table) : Except DErr Table :=
  let t1 := updIno t d.fileId fun r => { r with linkCount := r.linkCount + 1 }
  if d.parent ≠ APFS_ROOT_DIR_PARENT then
    if (t1 d.parent).seen = false then .error .parentMissing
    else if (t1 d.parent).mode &&& S_IFMT ≠ S_IFDIR then .error .parentNotDir
    else finishDentry d (updIno t1 d.parent fun r =>
      { r with childCount := r.childCount + 1 })
  else finishDentry d t1

/-- `check_inode_ids` (inode.c, lines 534-569). -/
def checkInodeIds (ino parentIno : Nat) : Option DErr :=
  if ino < APFS_MIN_USER_INO_NUM then
    if ino = 0 ∨ ino = 1 then some .invalidInodeNumber
    else if ino = 2 ∨ ino = 3 ∨ ino = 6 then
      if parentIno ≠ APFS_ROOT_DIR_PARENT then some .badRootParent else none
    else some .reservedInodeNumber
  else if parentIno < APFS_MIN_USER_INO_NUM then
    if parentIno = 0 then some .invalidParent
    else if parentIno = 1 then some .rootParentForNonroot
    else if parentIno = 2 ∨ parentIno = 3 ∨ parentIno = 6 then none
    else some .reservedParent
  else none

/-- The fields of an inode-record value that reach the table. -/
structure InodeVal where
  parentId : Nat
  privateId : Nat
  flags : Nat
  mode : Nat
  nlink : Nat
  deriving DecidableEq, Repr

/-- `parse_inode_record` (inode.c, lines 579-638), the table-visible core:
repeated-record check, id checks, mode consistency with a dtype already
folded in by a dentry, and storing mode, flags, private id and the
`nlink`/`nchildren` union field.  The xfield walk and the flag-mask
validation gate errors only and touch none of the fields below. -/
def parseInodeRecord (ino : Nat) (val : InodeVal) (t : Table) :
    Except DErr Table :=
  if (t ino).seen then .error .inodeRepeated
  else
    let t2 := updIno t ino fun r =>
      { r with seen := true, privateId := val.privateId }
    match checkInodeIds ino val.parentId with
    | some e => .error e
    | none =>
      let t3 := updIno t2 ino fun r => { r with flags := val.flags }
      let filetype := val.mode &&& S_IFMT
      if (t3 ino).mode ≠ 0 ∧ (t3 ino).mode ≠ filetype then
        .error .modeMismatch
      else if ¬ (filetype = S_IFREG ∨ filetype = S_IFDIR ∨
          filetype = S_IFLNK ∨ filetype = S_IFSOCK ∨ filetype = S_IFBLK ∨
          filetype = S_IFCHR ∨ filetype = S_IFIFO) then
        .error .invalidFileMode
      else .ok (updIno t3 ino fun r =>
        { r with mode := val.mode, nlink := val.nlink })

/-- A catalog record, as far as the inode table is concerned. -/
inductive CatRecord where
  | inode (ino : Nat) (val : InodeVal)
  | dentry (d : Dentry)

/-- The catalog walk feeding the inode table: records arrive in b-tree
order, each through its parser. -/
def walkRecords : List CatRecord → Table → Except DErr Table
  | [], t => .ok t
  | .inode ino val :: rs, t =>
      match parseInodeRecord ino val t with
      | .error e => .error e
      | .ok t2 => walkRecords rs t2
  | .dentry d :: rs, t =>
      match parseDentryRecord d t with
      | .error e => .error e
      | .ok t2 => walkRecords rs t2

/-- Does this record contribute to the measured link count of `ino`? -/
def recFilesId (ino : Nat) : CatRecord → Bool
  | .dentry d => d.fileId == ino
  | _ => false

/-- Does this record contribute to the measured child count of `ino`? -/
def recParentIs (ino : Nat) : CatRecord → Bool
  | .dentry d => d.parent == ino
  | _ => false

inductive IErr where
  | dirHasHardLinks
  | wrongChildCount
  | wrongLinkCount
  | extentsMissing
  | wrongAllocedSize
  | wrongSparseBytes
  | symlinkXattr
  | rsrcForkFlag
  deriving DecidableEq, Repr

/-- `check_inode_stats` (inode.c, lines 22-54), run on each entry at drain
time; `dstream` is `get_dstream(inode->i_private_id)`. -/
def checkInodeStats (inode : InodeRec) (dstream : Dstream) : Option IErr :=
  if inode.mode &&& S_IFMT = S_IFDIR ∧ inode.linkCount ≠ 1 then
    some .dirHasHardLinks
  else if inode.mode &&& S_IFMT = S_IFDIR ∧ inode.nlink ≠ inode.childCount
    then some .wrongChildCount
  else if inode.mode &&& S_IFMT ≠ S_IFDIR ∧ inode.nlink ≠ inode.linkCount
    then some .wrongLinkCount
  else if dstream.size < inode.size then some .extentsMissing
  else if dstream.size ≠ inode.allocedSize then some .wrongAllocedSize
  else if dstream.sparseBytes ≠ inode.sparseBytes then some .wrongSparseBytes
  else if (decide (inode.xattrBmap &&& XATTR_BMAP_SYMLINK ≠ 0))
      ≠ (decide (inode.mode &&& S_IFMT = S_IFLNK)) then some .symlinkXattr
  else if (decide (inode.xattrBmap &&& XATTR_BMAP_RSRC_FORK ≠ 0))
      ≠ (decide (inode.flags &&& APFS_INODE_HAS_RSRC_FORK ≠ 0)) then
    some .rsrcForkFlag
  else none

theorem updIno_eval (t : Table) (ino : Nat) (f : InodeRec → InodeRec)
    (j : Nat) : updIno t ino f j = if j = ino then f (t j) else t j := rfl

theorem finishDentry_fields (d : Dentry) (t1 t2 : Table)
    (h : finishDentry d t1 = .ok t2) (ino : Nat) :
    (t2 ino).linkCount = (t1 ino).linkCount ∧
    (t2 ino).childCount = (t1 ino).childCount ∧
    (t2 ino).nlink = (t1 ino).nlink := by
  simp only [finishDentry] at h
  split_ifs at h
  injection h with h
  subst h
  rw [updIno_eval]
  split_ifs with he <;> simp

theorem parseDentryRecord_counts (d : Dentry) (t t2 : Table)
    (h : parseDentryRecord d t = .ok t2) (ino : Nat) :
    (t2 ino).linkCount
      = (t ino).linkCount + (if d.fileId = ino then 1 else 0) ∧
    (t2 ino).childCount = (t ino).childCount +
      (if d.parent = ino ∧ ino ≠ APFS_ROOT_DIR_PARENT then 1 else 0) ∧
    (t2 ino).nlink = (t ino).nlink := by
  simp only [parseDentryRecord] at h
  split_ifs at h with hpar hseen hdir
  · rcases finishDentry_fields _ _ _ h ino with ⟨hl, hc, hn⟩
    rw [hl, hc, hn]
    clear h hseen hdir
    simp only [updIno_eval, apply_ite InodeRec.linkCount,
      apply_ite InodeRec.childCount, apply_ite InodeRec.nlink]
    refine ⟨?_, ?_, ?_⟩ <;> split_ifs <;> omega
  · rcases finishDentry_fields _ _ _ h ino with ⟨hl, hc, hn⟩
    rw [hl, hc, hn]
    clear h
    push_neg at hpar
    simp only [updIno_eval, apply_ite InodeRec.linkCount,
      apply_ite InodeRec.childCount, apply_ite InodeRec.nlink]
    refine ⟨?_, ?_, ?_⟩ <;> split_ifs <;> omega

theorem parseInodeRecord_counts (ino0 : Nat) (val : InodeVal) (t t2 : Table)
    (h : parseInodeRecord ino0 val t = .ok t2) (ino : Nat) :
    (t2 ino).linkCount = (t ino).linkCount ∧
    (t2 ino).childCount = (t ino).childCount := by
  simp only [parseInodeRecord] at h
  by_cases hseen : (t ino0).seen = true
  · rw [if_pos hseen] at h
    exact Except.noConfusion h
  · rw [if_neg hseen] at h
    rcases hids : checkInodeIds ino0 val.parentId with - | e
    · rw [hids] at h
      split_ifs at h
      injection h with h
      subst h
      refine ⟨?_, ?_⟩ <;>
        simp only [updIno_eval, apply_ite InodeRec.linkCount,
          apply_ite InodeRec.childCount] <;>
        split_ifs <;> simp
    · rw [hids] at h
      exact Except.noConfusion h

theorem walkRecords_counts : ∀ (rs : List CatRecord) (t t2 : Table),
    walkRecords rs t = .ok t2 → ∀ ino : Nat,
    (t2 ino).linkCount = (t ino).linkCount + rs.countP (recFilesId ino) ∧
    (ino ≠ APFS_ROOT_DIR_PARENT →
      (t2 ino).childCount = (t ino).childCount + rs.countP (recParentIs ino))
  | [], t, t2, h, ino => by
    injection h with h
    subst h
    simp
  | .inode i0 val :: rs, t, t2, h, ino => by
    unfold walkRecords at h
    rcases hp : parseInodeRecord i0 val t with e | tmid
    · rw [hp] at h
      cases h
    · rw [hp] at h
      rcases parseInodeRecord_counts i0 val t tmid hp ino with ⟨hl, hc⟩
      rcases walkRecords_counts rs tmid t2 h ino with ⟨wl, wc⟩
      refine ⟨?_, fun hne => ?_⟩
      · rw [wl, hl]
        simp [List.countP_cons, recFilesId]
      · rw [wc hne, hc]
        simp [List.countP_cons, recParentIs]
  | .dentry d :: rs, t, t2, h, ino => by
    unfold walkRecords at h
    rcases hp : parseDentryRecord d t with e | tmid
    · rw [hp] at h
      cases h
    · rw [hp] at h
      rcases parseDentryRecord_counts d t tmid hp ino with ⟨hl, hc, -⟩
      rcases walkRecords_counts rs tmid t2 h ino with ⟨wl, wc⟩
      refine ⟨?_, fun hne => ?_⟩
      · rw [wl, hl]
        rw [List.countP_cons]
        simp only [recFilesId]
        by_cases hf : d.fileId = ino <;> simp [hf] <;> omega
      · rw [wc hne, hc]
        rw [List.countP_cons]
        simp only [recParentIs]
        by_cases hpeq : d.parent = ino <;> simp [hpeq, hne] <;> omega

theorem checkInodeStats_none (i : InodeRec) (d : Dstream)
    (h : checkInodeStats i d = none) :
    (i.mode &&& S_IFMT = S_IFDIR → i.linkCount = 1 ∧ i.nlink = i.childCount) ∧
    (i.mode &&& S_IFMT ≠ S_IFDIR → i.nlink = i.linkCount) := by
  unfold checkInodeStats at h
  split_ifs at h with h1 h2 h3 <;> try exact Option.noConfusion h
  constructor
  · intro hd
    constructor
    · by_contra hl
      exact h1 ⟨hd, hl⟩
    · by_contra hn
      exact h2 ⟨hd, hn⟩
  · intro hd
    by_contra hn
    exact h3 ⟨hd, hn⟩

/-- C6, amended.  At end-of-walk drain time, for every inode accumulated in
the inode table by a successful catalog walk: if its mode marks a
directory, its measured link count is 1 — exactly one dentry names it — and
its declared `nchildren` equals the measured child count, which for every
id other than the fake root-parent id 1 is the number of dentry records
whose parent cnid is this inode (dentries filed directly under id 1 are not
counted anywhere); otherwise its declared `nlink` equals the number of
dentry records whose `file_id` is this inode.  Any mismatch is reported as
corruption by `check_inode_stats`. -/
theorem inode_drain_counts_match_dentries
    (rs : List CatRecord) (t : Table) (ino : Nat) (dstream : Dstream)
    (hwalk : walkRecords rs zeroTable = .ok t)
    (hchk : checkInodeStats (t ino) dstream = none) :
    ((t ino).mode &&& S_IFMT = S_IFDIR →
      rs.countP (recFilesId ino) = 1 ∧
      (ino ≠ APFS_ROOT_DIR_PARENT →
        (t ino).nlink = rs.countP (recParentIs ino))) ∧
    ((t ino).mode &&& S_IFMT ≠ S_IFDIR →
      (t ino).nlink = rs.countP (recFilesId ino)) := by
  rcases walkRecords_counts rs zeroTable t hwalk ino with ⟨wl, wc⟩
  rcases checkInodeStats_none (t ino) dstream hchk with ⟨cdir, cfile⟩
  have hz1 : (zeroTable ino).linkCount = 0 := rfl
  have hz2 : (zeroTable ino).childCount = 0 := rfl
  constructor
  · intro hd
    rcases cdir hd with ⟨hl1, hnc⟩
    refine ⟨by omega, fun hne => ?_⟩
    have := wc hne
    omega
  · intro hd
    have := cfile hd
    omega

/-- Witness for C6's amended theorem: one dentry of type directory filed
under the root-parent for inode 16. -/
def cwRecs : List CatRecord := [CatRecord.dentry ⟨16, 1, 4⟩]

def cwTbl : Table :=
  match walkRecords cwRecs zeroTable with
  | .ok t => t
  | .error _ => zeroTable

theorem inode_drain_counts_match_dentries_witness :
    cwRecs.countP (recFilesId 16) = 1 ∧ (cwTbl 16).nlink = 0 := by
  have h := inode_drain_counts_match_dentries cwRecs cwTbl 16 {}
    (by rfl) (by rfl)
  exact ⟨(h.1 (by rfl)).1, by rfl⟩

def c6Recs : List CatRecord := [CatRecord.dentry ⟨1, 1, 4⟩]

/-- The table produced by walking `c6Recs`. -/
def c6Tbl : Table :=
  match walkRecords c6Recs zeroTable with
  | .ok t => t
  | .error _ => zeroTable

/-- Counterexample to C6 as stated: a single dentry with `file_id` 1 and
parent cnid 1 (the fake root-parent) walks cleanly and leaves a
directory-mode entry for id 1 in the table; `check_inode_stats` passes it
at drain time — declared `nchildren` 0 matches the measured child count 0 —
although one dentry record has parent cnid 1, so the claim's "declared
nchildren equals the measured count of dentry records whose parent cnid is
this inode" fails on the code. -/
theorem checkInodeStats_misses_root_parent_children :
    walkRecords c6Recs zeroTable = .ok c6Tbl ∧
    checkInodeStats (c6Tbl 1) {} = none ∧
    (c6Tbl 1).mode &&& S_IFMT = S_IFDIR ∧
    (c6Tbl 1).nlink = 0 ∧
    c6Recs.countP (recParentIs 1) = 1 :=
  ⟨rfl, rfl, rfl, rfl, rfl⟩

/-! ## Dstream drain-time checks and the extent list
(apfsck/extents.c `check_dstream_stats`, `attach_extent_to_dstream`) -/

def APFS_TYPE_XATTR : Nat := 4

inductive DsErr where
  | noReferences
  | invalidId
  | freeId
  | xattrCloned
  | xattrHoles
  | missingRefcnt
  | badRefcnt
  | orphanSizes
  | missingLeadingExtents
  | extentsMissing
  | wrongAllocedSpace
  deriving DecidableEq, Repr

/-- `check_dstream_stats` (extents.c, lines 86-126): every `report` site in
source order; `nextObjId` is `vsb->v_next_obj_id`.  The orphan branch's
`report_weird` (for nonzero bytes not reaching the allocated size) is not a
corruption report and is outside this model. -/
def checkDstreamStats (d : Dstream) (nextObjId : Nat) : Option DsErr :=
  if d.references = 0 then some .noReferences
  else if d.id < APFS_MIN_USER_INO_NUM then some .invalidId
  else if nextObjId ≤ d.id then some .freeId
  else if d.objType = APFS_TYPE_XATTR ∧ (d.seen ∨ d.references ≠ 1) then
    some .xattrCloned
  else if d.objType = APFS_TYPE_XATTR ∧ d.sparseBytes ≠ 0 then
    some .xattrHoles
  else if d.objType ≠ APFS_TYPE_XATTR ∧ d.seen = false then
    some .missingRefcnt
  else if d.objType ≠ APFS_TYPE_XATTR ∧ d.refcnt ≠ d.references then
    some .badRefcnt
  else if d.orphan ∧ d.allocedSize < d.size then some .orphanSizes
  else if d.orphan = false ∧ d.logicStart ≠ 0 then
    some .missingLeadingExtents
  else if d.orphan = false ∧ d.bytes < d.size then some .extentsMissing
  else if d.orphan = false ∧ d.bytes ≠ d.allocedSize then
    some .wrongAllocedSpace
  else none

/-- One record of the extent-reference tree, as `extentref_lookup` returns
it: the extent containing the queried address. -/
structure ExtrefRecord where
  physAddr : Nat
  blocks : Nat
  deriving DecidableEq, Repr

/-- The sorted-insertion scan inside `attach_extent_to_dstream` (extents.c,
lines 330-352): entries are ordered by physical address; an extent already
listed is not added again (`goto next`). -/
def insertListedExtent (p : Nat) : List Nat → List Nat
  | [] => [p]
  | e :: es =>
      if p = e then e :: es
      else if p < e then p :: e :: es
      else e :: insertListedExtent p es

/-- The `while (paddr < paddr_end)` loop of `attach_extent_to_dstream`:
look up the physical extent containing `paddr`, insert its base address
into the dstream's list, and continue past that extent.  `extref` abstracts
`extentref_lookup`; the fuel makes the loop total (the real tree yields
`blocks > 0`, so the loop always advances). -/
def attachLoop (extref : Nat → ExtrefRecord) :
    Nat → Nat → Nat → List Nat → Option (List Nat)
  | 0, _, _, _ => none
  | fuel + 1, paddr, paddrEnd, exts =>
      if paddr < paddrEnd then
        let er := extref paddr
        attachLoop extref fuel (er.physAddr + er.blocks) paddrEnd
          (insertListedExtent er.physAddr exts)
      else some exts

/-- `attach_extent_to_dstream` (extents.c, lines 308-355): compute
`paddr_end` in `u64` arithmetic, report `"physical address is too big."`
on overflow, then run the loop over the dstream's extent list. -/
def attachExtentToDstream (extref : Nat → ExtrefRecord) (fuel : Nat)
    (paddr blkCount : Nat) (exts : List Nat) : Option (List Nat) :=
  let paddrEnd := (paddr + blkCount) % 2 ^ 64
  if paddrEnd < paddr then none
  else attachLoop extref fuel paddr paddrEnd exts

theorem insertListedExtent_chain_cons (p a : Nat) :
    ∀ (l : List Nat), List.Chain' (· < ·) (a :: l) → a < p →
    List.Chain' (· < ·) (a :: insertListedExtent p l)
  | [], _, hap => by
    simp [insertListedExtent, hap]
  | e :: es, h, hap => by
    rw [List.chain'_cons] at h
    unfold insertListedExtent
    split_ifs with h1 h2
    · exact List.chain'_cons.mpr h
    · exact List.chain'_cons.mpr ⟨hap,
        List.chain'_cons.mpr ⟨h2, h.2⟩⟩
    · exact List.chain'_cons.mpr
        ⟨h.1, insertListedExtent_chain_cons p e es h.2 (by omega)⟩

theorem insertListedExtent_chain (p : Nat) :
    ∀ (l : List Nat), List.Chain' (· < ·) l →
    List.Chain' (· < ·) (insertListedExtent p l)
  | [], _ => List.chain'_singleton p
  | e :: es, h => by
    unfold insertListedExtent
    split_ifs with h1 h2
    · exact h
    · exact List.chain'_cons.mpr ⟨h2, h⟩
    · exact insertListedExtent_chain_cons p e es h (by omega)

theorem attachLoop_chain (extref : Nat → ExtrefRecord) :
    ∀ (fuel paddr paddrEnd : Nat) (exts res : List Nat),
    attachLoop extref fuel paddr paddrEnd exts = some res →
    List.Chain' (· < ·) exts → List.Chain' (· < ·) res := by
  intro fuel
  induction fuel with
  | zero => intro _ _ _ _ h; cases h
  | succ fuel ih =>
    intro paddr paddrEnd exts res h hc
    unfold attachLoop at h
    split_ifs at h
    · exact ih _ _ _ res h (insertListedExtent_chain _ _ hc)
    · injection h with h
      subst h
      exact hc

set_option maxHeartbeats 1000000 in
/-- C7, amended.  At end-of-walk drain time, for every dstream accumulated
in the dstream table whose `check_dstream_stats` raises no corruption
report: it has at least one measured reference; when its references come
from anything but an extended attribute (orphan or not), its dstream-id
record was seen and its declared reference count equals the measured
number of references; when it is owned by an xattr the measured reference
count is exactly one, no dstream-id record exists, and its `refcnt` field
is never compared; when it is not an orphan (xattr or not), its extents
start at logical address zero and the sum of its extent lengths (`bytes`)
equals its declared `alloced_size` and is at least its declared `size`;
an orphan is only required to satisfy `size ≤ alloced_size`, its extents
may be partially lost.  Independently, the list of physical extents
attached to a dstream is kept sorted by physical address with no
duplicate entries (strictly ascending) by every
`attach_extent_to_dstream`. -/
theorem dstream_drain_stats_and_sorted_extents
    (d : Dstream) (nextObjId : Nat)
    (extref : Nat → ExtrefRecord) (fuel paddr blkCount : Nat)
    (exts res : List Nat)
    (hchk : checkDstreamStats d nextObjId = none)
    (hatt : attachExtentToDstream extref fuel paddr blkCount exts = some res)
    (hsorted : List.Chain' (· < ·) exts) :
    d.references ≠ 0 ∧
    (d.objType ≠ APFS_TYPE_XATTR →
      d.seen = true ∧ d.refcnt = d.references) ∧
    (d.objType = APFS_TYPE_XATTR →
      d.seen = false ∧ d.references = 1 ∧ d.sparseBytes = 0) ∧
    (d.orphan = false →
      d.logicStart = 0 ∧ d.size ≤ d.bytes ∧ d.bytes = d.allocedSize) ∧
    (d.orphan = true → d.size ≤ d.allocedSize) ∧
    List.Chain' (· < ·) res := by
  have hres : List.Chain' (· < ·) res := by
    simp only [attachExtentToDstream] at hatt
    split_ifs at hatt
    exact attachLoop_chain extref fuel paddr _ exts res hatt hsorted
  unfold checkDstreamStats at hchk
  split_ifs at hchk with h1 h2 h3 h4 h5 h6 h7 h8 h9 h10 h11 <;>
    try exact Option.noConfusion hchk
  refine ⟨h1, fun hx => ⟨?_, ?_⟩, fun hx => ⟨?_, ?_, ?_⟩,
      fun ho => ⟨?_, ?_, ?_⟩, fun ho => ?_, hres⟩
  · by_cases hs : d.seen = true
    · exact hs
    · exact absurd ⟨hx, by simpa using hs⟩ h6
  · by_contra hr
    exact h7 ⟨hx, hr⟩
  · by_cases hs : d.seen = true
    · exact absurd ⟨hx, Or.inl hs⟩ h4
    · simpa using hs
  · by_contra hr
    exact h4 ⟨hx, Or.inr hr⟩
  · by_contra hs
    exact h5 ⟨hx, hs⟩
  · by_contra hl
    exact h9 ⟨ho, hl⟩
  · by_contra hb
    push_neg at hb
    exact h10 ⟨ho, hb⟩
  · by_contra hb
    exact h11 ⟨ho, hb⟩
  · by_contra hs
    push_neg at hs
    exact h8 ⟨ho, hs⟩

/-- Witness for C7's amended theorem at a concrete dstream and a one-extent
attach. -/
theorem dstream_drain_stats_and_sorted_extents_witness :
    (Dstream.mk 16 0 true false 1 1 8 8 8 0 0 []).references ≠ 0 ∧
    List.Chain' (· < ·) [3, 7] := by
  have h := dstream_drain_stats_and_sorted_extents
    (Dstream.mk 16 0 true false 1 1 8 8 8 0 0 []) 17
    (fun _ => ⟨7, 1⟩) 2 7 1 [3] [3, 7] (by rfl) (by rfl)
    (List.chain'_singleton 3)
  exact ⟨h.1, h.2.2.2.2.2⟩

/-- Counterexample to C7 as stated, two parts.  An orphan dstream (id 16,
declared size 5, allocated size 10, one seen reference with matching
refcnt) whose extents are all gone (`bytes = 0`) passes
`check_dstream_stats` without any corruption report, although the sum of
its extent lengths is neither equal to its `alloced_size` nor at least its
`size`.  And an xattr dstream (objType 4) with measured reference count 1
but declared `refcnt` 0 also passes: the xattr branch never compares
`refcnt` with the measured references. -/
theorem checkDstreamStats_orphan_partial_extents :
    checkDstreamStats
        (Dstream.mk 16 0 true true 1 1 5 10 0 0 0 []) 17 = none ∧
    (Dstream.mk 16 0 true true 1 1 5 10 0 0 0 []).bytes
      < (Dstream.mk 16 0 true true 1 1 5 10 0 0 0 []).size ∧
    (Dstream.mk 16 0 true true 1 1 5 10 0 0 0 []).bytes
      ≠ (Dstream.mk 16 0 true true 1 1 5 10 0 0 0 []).allocedSize ∧
    checkDstreamStats
        (Dstream.mk 16 4 false false 0 1 8 8 8 0 0 []) 17 = none ∧
    (Dstream.mk 16 4 false false 0 1 8 8 8 0 0 []).refcnt
      ≠ (Dstream.mk 16 4 false false 0 1 8 8 8 0 0 []).references := by
  refine ⟨by rfl, by decide, by decide, by rfl, by decide⟩

/-! ## Free queues and allocation bitmaps (apfsck/spaceman.c
`parse_free_queue_record`, `range_in_ip`, `bmap_mark_as_used`,
`ip_bmap_mark_as_used`, `container_bmap_mark_as_used`) -/

def U64 : Nat := 2 ^ 64

def APFS_SFQ_IP : Nat := 0
def APFS_SFQ_MAIN : Nat := 1
def APFS_SFQ_TIER2 : Nat := 2

inductive FqErr where
  | lengthZero
  | valueUnnecessary
  | wrongValueSize
  | ipOverrun
  | shouldBeInsideIp
  | shouldBeOutsideIp
  | badXid
  | blockUsedTwice
  | outOfRange
  | outOfRangeIp
  deriving DecidableEq, Repr

/-- `block_in_ip` (spaceman.c, lines 24-31); `u64` arithmetic on the end of
the pool. -/
def blockInIp (ipBase ipCnt bno : Nat) : Bool :=
  decide (ipBase ≤ bno ∧ bno < (ipBase + ipCnt) % U64)

/-- `range_in_ip` (spaceman.c, lines 38-47): look only at the first and the
last block of the range (`last = paddr + length - 1` in `u64`); having
exactly one of them inside the pool is the `"internal pool is overrun."`
report; the result says whether the range counts as an IP range. -/
def rangeInIp (ipBase ipCnt paddr length : Nat) :
    Except FqErr Bool :=
  let last := (paddr + length + (U64 - 1)) % U64
  let firstIn := blockInIp ipBase ipCnt paddr
  let lastIn := blockInIp ipBase ipCnt last
  if (firstIn ∧ ¬ lastIn) ∨ (¬ firstIn ∧ lastIn) then .error .ipOverrun
  else .ok firstIn

/-- An allocation bitmap, one bit per block; `false` is free. -/
def Bitmap : Type := Nat → Bool

/-- The loop of `bmap_mark_as_used` (spaceman.c, lines 64-70), already
given its trip count: marking an already-set bit is the
`"A block is used twice."` report. -/
def bmapMarkLoop : Bitmap → Nat → Nat → Option Bitmap
  | bm, _, 0 => some bm
  | bm, i, Nat.succ n =>
      if bm i then none
      else bmapMarkLoop (fun j => if j = i then true else bm j) (i + 1) n

/-- `bmap_mark_as_used`: `for (i = paddr; i < paddr + length; ++i)` with
`paddr + length` wrapping in `u64` — when the sum wraps below `paddr` the
loop body never runs. -/
def bmapMarkAsUsed (bm : Bitmap) (paddr length : Nat) : Option Bitmap :=
  bmapMarkLoop bm paddr ((paddr + length) % U64 - paddr)

/-- `ip_bmap_mark_as_used` (spaceman.c, lines 81-87): the range must lie in
the pool, then the pool-relative bits are flipped. -/
def ipBmapMarkAsUsed (ipBase ipCnt : Nat) (ipBm : Bitmap)
    (paddr length : Nat) : Except FqErr Bitmap :=
  match rangeInIp ipBase ipCnt paddr length with
  | .error e => .error e
  | .ok inIp =>
      if inIp = false then .error .outOfRangeIp
      else
        match bmapMarkAsUsed ipBm (paddr - ipBase) length with
        | none => .error .blockUsedTwice
        | some bm => .ok bm

/-- `container_bmap_mark_as_used` (spaceman.c, lines 97-115): addresses at
or above the tier-2 block number go to the tier-2 device bitmap; the range
must fit the device (`u64` overflow is also rejected), then the bits are
flipped. -/
def containerBmapMarkAsUsed (tier2Blkno maxMain maxTier2 : Nat)
    (mainBm tier2Bm : Bitmap) (paddr length : Nat) :
    Except FqErr (Bitmap × Bitmap) :=
  let tier2 := tier2Blkno ≤ paddr
  let p := if tier2 then paddr - tier2Blkno else paddr
  let maxDev := if tier2 then maxTier2 else maxMain
  if maxDev < (p + length) % U64 ∨ (p + length) % U64 < p then
    .error .outOfRange
  else
    match bmapMarkAsUsed (if tier2 then tier2Bm else mainBm) p length with
    | none => .error .blockUsedTwice
    | some bm => .ok (if tier2 then (mainBm, bm) else (bm, tier2Bm))

/-- The value decoding of `parse_free_queue_record` (spaceman.c, lines
1055-1067): no value means a one-block ghost record; an 8-byte value is the
length, and must not encode 0 (`"length is zero."`) or 1
(`"value is unnecessary."`); any other value size is
`"wrong size of value."`. -/
def fqDecodeLength (len valword : Nat) : Except FqErr Nat :=
  if len = 0 then .ok 1
  else if len = 8 then
    if valword = 0 then .error .lengthZero
    else if valword = 1 then .error .valueUnnecessary
    else .ok valword
  else .error .wrongValueSize

/-- The spaceman/container parameters `parse_free_queue_record` reads. -/
structure SmCtx where
  sxid : Nat
  ipBase : Nat
  ipCnt : Nat
  tier2Blkno : Nat
  maxMain : Nat
  maxTier2 : Nat

/-- The mutable state the record parser touches: the three allocation
bitmaps and the per-queue counters. -/
structure FqState where
  ipBm : Bitmap
  mainBm : Bitmap
  tier2Bm : Bitmap
  sfqCount : Nat
  sfqOldest : Nat

/-- A free-queue record key `(sfqk_xid, sfqk_paddr)`. -/
structure FqKey where
  xid : Nat
  paddr : Nat
  deriving DecidableEq, Repr

/-- `parse_free_queue_record` (spaceman.c, lines 1048-1091): decode the
length, account it, classify the range against the internal pool, check
the transaction id, and mark the covered blocks used in the pool bitmap or
in the device bitmap. -/
def parseFreeQueueRecord (ctx : SmCtx) (sfqIndex : Nat) (key : FqKey)
    (len valword : Nat) (st : FqState) : Except FqErr FqState :=
  match fqDecodeLength len valword with
  | .error e => .error e
  | .ok length =>
    let count2 := st.sfqCount + length
    match rangeInIp ctx.ipBase ctx.ipCnt key.paddr length with
    | .error e => .error e
    | .ok insideIp =>
      if sfqIndex = APFS_SFQ_IP ∧ insideIp = false then
        .error .shouldBeInsideIp
      else if sfqIndex ≠ APFS_SFQ_IP ∧ insideIp = true then
        .error .shouldBeOutsideIp
      else if ctx.sxid < key.xid then .error .badXid
      else
        let oldest := if st.sfqOldest = 0 ∨ key.xid < st.sfqOldest then
            key.xid else st.sfqOldest
        if insideIp then
          match ipBmapMarkAsUsed ctx.ipBase ctx.ipCnt st.ipBm key.paddr
              length with
          | .error e => .error e
          | .ok bm =>
              .ok { st with
                    ipBm := bm
                    sfqCount := count2
                    sfqOldest := oldest }
        else
          match containerBmapMarkAsUsed ctx.tier2Blkno ctx.maxMain
              ctx.maxTier2 st.mainBm st.tier2Bm key.paddr length with
          | .error e => .error e
          | .ok bms =>
              .ok { st with
                    mainBm := bms.1
                    tier2Bm := bms.2
                    sfqCount := count2
                    sfqOldest := oldest }

/-- Marking `n` bits from `i` succeeds only on previously-free bits, sets
exactly those bits, and leaves every other bit alone. -/
lemma bmapMarkLoop_spec :
    ∀ (n : Nat) (bm : Bitmap) (i : Nat) (bm2 : Bitmap),
    bmapMarkLoop bm i n = some bm2 →
    (∀ j, i ≤ j → j < i + n → bm j = false ∧ bm2 j = true) ∧
    (∀ j, j < i ∨ i + n ≤ j → bm2 j = bm j) := by
  intro n
  induction n with
  | zero =>
    intro bm i bm2 h
    simp only [bmapMarkLoop, Option.some.injEq] at h
    subst h
    exact ⟨fun j hj1 hj2 => absurd hj2 (by omega), fun j _ => rfl⟩
  | succ n ih =>
    intro bm i bm2 h
    simp only [bmapMarkLoop] at h
    split_ifs at h with hbi
    obtain ⟨h1, h2⟩ := ih _ _ _ h
    constructor
    · intro j hj1 hj2
      by_cases hji : j = i
      · subst hji
        refine ⟨by simpa using hbi, ?_⟩
        have hx := h2 j (Or.inl (by omega))
        rw [hx]
        simp
      · have hx := h1 j (by omega) (by omega)
        refine ⟨?_, hx.2⟩
        simpa [hji] using hx.1
    · intro j hj
      have hx := h2 j (by omega)
      rw [hx]
      simp [show j ≠ i by omega]

/-- Without `u64` wrap-around the trip count of `bmap_mark_as_used` is
exactly the range length. -/
lemma bmapMarkAsUsed_eq {p L : Nat} (bm : Bitmap) (h : p + L < U64) :
    bmapMarkAsUsed bm p L = bmapMarkLoop bm p L := by
  unfold bmapMarkAsUsed
  rw [Nat.mod_eq_of_lt h, Nat.add_sub_cancel_left]

/-- The `u64` form of `paddr + length - 1` without wrap-around. -/
lemma lastBlock_eq {p L : Nat} (hL : 1 ≤ L) (hnw : p + L < U64) :
    (p + L + (U64 - 1)) % U64 = p + L - 1 := by
  have hU : 0 < U64 := by norm_num [U64]
  have h1 : p + L + (U64 - 1) = (p + L - 1) + 1 * U64 := by omega
  rw [h1, Nat.add_mul_mod_self_right]
  exact Nat.mod_eq_of_lt (by omega)

/-- `block_in_ip` without wrap-around of the pool end. -/
lemma blockInIp_iff {b c bno : Nat} (hip : b + c < U64) :
    blockInIp b c bno = true ↔ (b ≤ bno ∧ bno < b + c) := by
  simp [blockInIp, Nat.mod_eq_of_lt hip]

/-- A range that `range_in_ip` classifies as internal-pool lies entirely
inside the pool (without wrap-around, first and last block inside implies
every block inside). -/
lemma rangeInIp_ok_true {b c p L : Nat} (hL : 1 ≤ L) (hnw : p + L < U64)
    (hip : b + c < U64) (h : rangeInIp b c p L = .ok true) :
    ∀ i, i < L → b ≤ p + i ∧ p + i < b + c := by
  simp only [rangeInIp] at h
  rw [lastBlock_eq hL hnw] at h
  split_ifs at h with hc
  simp only [Except.ok.injEq] at h
  have hlast : blockInIp b c (p + L - 1) = true := by
    cases hl : blockInIp b c (p + L - 1) with
    | false => exact absurd (Or.inl ⟨h, by simp [hl]⟩) hc
    | true => rfl
  rw [blockInIp_iff hip] at h hlast
  intro i hi
  omega

/-- A range `range_in_ip` classifies as non-pool has its first and its
last block outside the pool (only those two are examined). -/
lemma rangeInIp_ok_false {b c p L : Nat} (hL : 1 ≤ L) (hnw : p + L < U64)
    (h : rangeInIp b c p L = .ok false) :
    blockInIp b c p = false ∧ blockInIp b c (p + L - 1) = false := by
  simp only [rangeInIp] at h
  rw [lastBlock_eq hL hnw] at h
  split_ifs at h with hc
  simp only [Except.ok.injEq] at h
  refine ⟨h, ?_⟩
  cases hl : blockInIp b c (p + L - 1) with
  | false => rfl
  | true => exact absurd (Or.inr ⟨by simp [h], hl⟩) hc

/-- Inversion of `ip_bmap_mark_as_used`: success means the range counted
as internal-pool and the pool-relative marking succeeded. -/
lemma ipBmapMarkAsUsed_inv {b c : Nat} {bm : Bitmap} {p L : Nat}
    {bm2 : Bitmap} (h : ipBmapMarkAsUsed b c bm p L = .ok bm2) :
    rangeInIp b c p L = .ok true ∧
    bmapMarkAsUsed bm (p - b) L = some bm2 := by
  unfold ipBmapMarkAsUsed at h
  cases hri : rangeInIp b c p L with
  | error e => rw [hri] at h; simp at h
  | ok inIp =>
    simp only [hri] at h
    split_ifs at h with hf
    have hIn : inIp = true := by
      cases inIp with
      | false => exact absurd rfl hf
      | true => rfl
    subst hIn
    cases hmk : bmapMarkAsUsed bm (p - b) L with
    | none => rw [hmk] at h; simp at h
    | some bmx =>
      simp only [hmk, Except.ok.injEq] at h
      subst h
      exact ⟨rfl, rfl⟩

/-- Inversion of `container_bmap_mark_as_used` for an address below the
tier-2 device: the main-device bitmap is marked, tier-2 untouched. -/
lemma containerBmapMarkAsUsed_main_inv {t2 mM mT2 : Nat}
    {mainBm t2Bm : Bitmap} {p L : Nat} {bms : Bitmap × Bitmap}
    (hlt : p < t2)
    (h : containerBmapMarkAsUsed t2 mM mT2 mainBm t2Bm p L = .ok bms) :
    bmapMarkAsUsed mainBm p L = some bms.1 ∧ bms.2 = t2Bm := by
  simp only [containerBmapMarkAsUsed] at h
  have hn : ¬ (t2 ≤ p) := by omega
  simp only [if_neg hn] at h
  split_ifs at h with hov
  cases hmk : bmapMarkAsUsed mainBm p L with
  | none => rw [hmk] at h; simp at h
  | some bm =>
    simp only [hmk, Except.ok.injEq] at h
    subst h
    exact ⟨rfl, rfl⟩

/-- Inversion of `container_bmap_mark_as_used` for an address on the
tier-2 device: the tier-2 bitmap is marked at device-relative offsets,
the main device untouched. -/
lemma containerBmapMarkAsUsed_tier2_inv {t2 mM mT2 : Nat}
    {mainBm t2Bm : Bitmap} {p L : Nat} {bms : Bitmap × Bitmap}
    (hge : t2 ≤ p)
    (h : containerBmapMarkAsUsed t2 mM mT2 mainBm t2Bm p L = .ok bms) :
    bmapMarkAsUsed t2Bm (p - t2) L = some bms.2 ∧ bms.1 = mainBm := by
  simp only [containerBmapMarkAsUsed] at h
  simp only [if_pos hge] at h
  split_ifs at h with hov
  cases hmk : bmapMarkAsUsed t2Bm (p - t2) L with
  | none => rw [hmk] at h; simp at h
  | some bm =>
    simp only [hmk, Except.ok.injEq] at h
    subst h
    exact ⟨rfl, rfl⟩

set_option maxHeartbeats 1000000

/-- C8, amended. For every accepted free-queue record (no `u64`
wrap-around in the range or the pool): a record of the internal-pool
queue covers only blocks inside `[ip_base, ip_base + ip_block_count)` and
flips exactly those pool-bitmap bits from 0 to 1; a record of the MAIN or
TIER2 queues has its FIRST and its LAST block outside the pool
(`range_in_ip` examines only those two, so middle blocks may still lie
inside), and flips the covered bits from 0 to 1 in the bitmap of the
device holding them: the main device below the tier-2 block number, the
tier-2 device (at device-relative offsets) at or above it; the queue's
block count grows by the record's length and the record's xid is at most
the container's. -/
theorem free_queue_record_ranges_and_marking (ctx : SmCtx)
    (sfqIndex : Nat) (key : FqKey) (len valword : Nat) (st st2 : FqState)
    (L : Nat) (hdec : fqDecodeLength len valword = .ok L) (hL : 1 ≤ L)
    (hnw : key.paddr + L < U64) (hip : ctx.ipBase + ctx.ipCnt < U64)
    (hok : parseFreeQueueRecord ctx sfqIndex key len valword st
      = .ok st2) :
    (sfqIndex = APFS_SFQ_IP →
      (∀ i, i < L →
        ctx.ipBase ≤ key.paddr + i ∧
        key.paddr + i < ctx.ipBase + ctx.ipCnt) ∧
      (∀ i, i < L →
        st.ipBm (key.paddr - ctx.ipBase + i) = false ∧
        st2.ipBm (key.paddr - ctx.ipBase + i) = true)) ∧
    (sfqIndex ≠ APFS_SFQ_IP →
      blockInIp ctx.ipBase ctx.ipCnt key.paddr = false ∧
      blockInIp ctx.ipBase ctx.ipCnt (key.paddr + L - 1) = false) ∧
    (sfqIndex ≠ APFS_SFQ_IP → key.paddr < ctx.tier2Blkno →
      ∀ i, i < L →
        st.mainBm (key.paddr + i) = false ∧
        st2.mainBm (key.paddr + i) = true) ∧
    (sfqIndex ≠ APFS_SFQ_IP → ctx.tier2Blkno ≤ key.paddr →
      ∀ i, i < L →
        st.tier2Bm (key.paddr - ctx.tier2Blkno + i) = false ∧
        st2.tier2Bm (key.paddr - ctx.tier2Blkno + i) = true) ∧
    st2.sfqCount = st.sfqCount + L ∧ key.xid ≤ ctx.sxid := by
  simp only [parseFreeQueueRecord] at hok
  rw [hdec] at hok
  simp only [] at hok
  cases hri : rangeInIp ctx.ipBase ctx.ipCnt key.paddr L with
  | error e => rw [hri] at hok; simp at hok
  | ok insideIp =>
    simp only [hri] at hok
    set old := (if st.sfqOldest = 0 ∨ key.xid < st.sfqOldest then
        key.xid else st.sfqOldest) with hold
    split_ifs at hok with h1 h2 h3 h4
    · -- the range counted as internal-pool
      subst h4
      have hidx : sfqIndex = APFS_SFQ_IP := by
        by_contra hne
        exact h2 ⟨hne, rfl⟩
      cases hmk : ipBmapMarkAsUsed ctx.ipBase ctx.ipCnt st.ipBm
          key.paddr L with
      | error e => rw [hmk] at hok; simp at hok
      | ok bm =>
        simp only [hmk, Except.ok.injEq] at hok
        subst hok
        obtain ⟨hri2, hmark⟩ := ipBmapMarkAsUsed_inv hmk
        have hd : key.paddr - ctx.ipBase + L < U64 := by omega
        rw [bmapMarkAsUsed_eq _ hd] at hmark
        have hspec := bmapMarkLoop_spec L st.ipBm
            (key.paddr - ctx.ipBase) bm hmark
        refine ⟨fun _ => ⟨rangeInIp_ok_true hL hnw hip hri, ?_⟩,
            fun hne => absurd hidx hne, fun hne => absurd hidx hne,
            fun hne => absurd hidx hne, rfl, Nat.le_of_not_lt h3⟩
        intro i hi
        exact hspec.1 (key.paddr - ctx.ipBase + i) (by omega) (by omega)
    · -- the range counted as outside the pool
      have hif : insideIp = false := by
        cases insideIp with
        | false => rfl
        | true => exact absurd rfl h4
      subst hif
      have hidx : sfqIndex ≠ APFS_SFQ_IP := by
        intro h0
        exact h1 ⟨h0, rfl⟩
      cases hmk : containerBmapMarkAsUsed ctx.tier2Blkno ctx.maxMain
          ctx.maxTier2 st.mainBm st.tier2Bm key.paddr L with
      | error e => rw [hmk] at hok; simp at hok
      | ok bms =>
        simp only [hmk, Except.ok.injEq] at hok
        subst hok
        refine ⟨fun h0 => absurd h0 hidx,
            fun _ => rangeInIp_ok_false hL hnw hri, ?_, ?_,
            rfl, Nat.le_of_not_lt h3⟩
        · intro _ hlt i hi
          obtain ⟨hmark, ht2⟩ := containerBmapMarkAsUsed_main_inv hlt hmk
          rw [bmapMarkAsUsed_eq _ hnw] at hmark
          have hspec := bmapMarkLoop_spec L st.mainBm key.paddr bms.1 hmark
          exact hspec.1 (key.paddr + i) (by omega) (by omega)
        · intro _ hge i hi
          obtain ⟨hmark, hm⟩ := containerBmapMarkAsUsed_tier2_inv hge hmk
          have hd : key.paddr - ctx.tier2Blkno + L < U64 := by omega
          rw [bmapMarkAsUsed_eq _ hd] at hmark
          have hspec := bmapMarkLoop_spec L st.tier2Bm
              (key.paddr - ctx.tier2Blkno) bms.2 hmark
          exact hspec.1 (key.paddr - ctx.tier2Blkno + i) (by omega)
            (by omega)

/-- The state produced by the witness record below: one internal-pool
block at pool offset 10 marked used. -/
def c8WitnessState : FqState :=
  ⟨fun j => if j = 10 then true else (fun _ : Nat => false) j,
   fun _ => false, fun _ => false, 0 + 1, 5⟩

theorem free_queue_record_ranges_and_marking_witness :
    parseFreeQueueRecord ⟨10, 100, 100, 1000, 1000, 1000⟩ APFS_SFQ_IP
        ⟨5, 110⟩ 0 0 ⟨fun _ => false, fun _ => false, fun _ => false, 0, 0⟩
      = .ok c8WitnessState ∧
    ((100 : Nat) ≤ 110 + 0 ∧ 110 + 0 < 100 + 100) ∧
    c8WitnessState.ipBm (110 - 100 + 0) = true := by
  have h := free_queue_record_ranges_and_marking
      ⟨10, 100, 100, 1000, 1000, 1000⟩ APFS_SFQ_IP ⟨5, 110⟩ 0 0
      ⟨fun _ => false, fun _ => false, fun _ => false, 0, 0⟩
      c8WitnessState 1 rfl (by decide) (by decide) (by decide) rfl
  exact ⟨rfl, (h.1 rfl).1 0 (by decide), ((h.1 rfl).2 0 (by decide)).2⟩

/-- Whether a free-queue record parse succeeded. -/
def fqIsOk : Except FqErr FqState → Bool
  | .ok _ => true
  | .error _ => false

set_option maxRecDepth 8000

/-- C8 counterexample: a MAIN free-queue record whose range `[50, 250)`
strictly encloses the internal pool `[100, 200)` is accepted without any
report — `range_in_ip` looks only at the first and the last block — even
though covered block 150 lies inside the pool, so the range is not
entirely outside `[ip_base, ip_base + ip_block_count)`. -/
theorem parseFreeQueueRecord_main_range_can_enclose_ip :
    fqIsOk (parseFreeQueueRecord ⟨1000, 100, 100, 1000000, 1000000,
        1000000⟩ APFS_SFQ_MAIN ⟨5, 50⟩ 8 200
        ⟨fun _ => false, fun _ => false, fun _ => false, 0, 0⟩) = true ∧
    blockInIp 100 100 150 = true ∧
    (50 ≤ 150 ∧ 150 < 50 + 200) := by
  refine ⟨rfl, ?_, by decide⟩
  rw [blockInIp_iff (by decide)]
  exact ⟨by decide, by decide⟩

/-- C9. The one-block free-queue encoding is canonical
(parse_free_queue_record, spaceman.c lines 1055-1067): a record with no
value denotes exactly one block; an 8-byte value decodes to its encoded
length only when that is at least 2, while encoded lengths 0 and 1 are
reported as corruption, as is any other value size; hence every decoded
length is 1 (ghost record) or at least 2. -/
theorem fqDecodeLength_canonical :
    (∀ v, fqDecodeLength 0 v = .ok 1) ∧
    (∀ v, 2 ≤ v → fqDecodeLength 8 v = .ok v) ∧
    fqDecodeLength 8 0 = .error .lengthZero ∧
    fqDecodeLength 8 1 = .error .valueUnnecessary ∧
    (∀ len v, len ≠ 0 → len ≠ 8 →
      fqDecodeLength len v = .error .wrongValueSize) ∧
    (∀ len v L, fqDecodeLength len v = .ok L → L = 1 ∨ 2 ≤ L) := by
  refine ⟨fun v => rfl, ?_, rfl, rfl, ?_, ?_⟩
  · intro v hv
    have he : fqDecodeLength 8 v =
        if v = 0 then .error .lengthZero
        else if v = 1 then .error .valueUnnecessary
        else .ok v := rfl
    rw [he, if_neg (by omega), if_neg (by omega)]
  · intro len v h0 h8
    simp only [fqDecodeLength]
    rw [if_neg h0, if_neg h8]
  · intro len v L h
    simp only [fqDecodeLength] at h
    split_ifs at h with h1 h2 h3 h4
    · simp only [Except.ok.injEq] at h
      omega
    · simp only [Except.ok.injEq] at h
      omega

theorem fqDecodeLength_canonical_witness :
    fqDecodeLength 0 7 = .ok 1 ∧ fqDecodeLength 8 5 = .ok 5 ∧
    fqDecodeLength 4 5 = .error .wrongValueSize ∧
    ((3 : Nat) = 1 ∨ 2 ≤ 3) :=
  ⟨fqDecodeLength_canonical.1 7,
   fqDecodeLength_canonical.2.1 5 (by decide),
   fqDecodeLength_canonical.2.2.2.2.1 4 5 (by decide) (by decide),
   fqDecodeLength_canonical.2.2.2.2.2 8 3 3 rfl⟩

/-! ## Ordered find-or-create accumulators (apfsck/inode.c `get_inode`,
`get_sibling`) -/

def INODE_TABLE_BUCKETS : Nat := 512

/-- The shared find-or-create walk of `get_inode` (inode.c, lines 158-187)
and `get_sibling` (inode.c, lines 648-676) over one id-ordered linked
list, tracking ids: stop on a match, splice a fresh entry in front of the
first larger id. The boolean says whether a new entry was allocated. -/
def getEntry : Nat → List Nat → Bool × List Nat
  | ino, [] => (true, [ino])
  | ino, e :: rest =>
      if ino = e then (false, e :: rest)
      else if ino < e then (true, ino :: e :: rest)
      else ((getEntry ino rest).1, e :: (getEntry ino rest).2)

/-- `get_sibling` walks the single sibling list of one inode. -/
def getSibling (id : Nat) (siblings : List Nat) : Bool × List Nat :=
  getEntry id siblings

/-- `get_inode` hashes the inode number into one of the 512 buckets and
runs the ordered find-or-create walk there. -/
def getInode (ino : Nat) (table : Nat → List Nat) :
    Bool × (Nat → List Nat) :=
  let idx := ino % INODE_TABLE_BUCKETS
  let r := getEntry ino (table idx)
  (r.1, fun j => if j = idx then r.2 else table j)

lemma getEntry_cons_eq {ino e : Nat} (rest : List Nat) (h : ino = e) :
    getEntry ino (e :: rest) = (false, e :: rest) := by
  subst h
  simp [getEntry]

lemma getEntry_cons_lt {ino e : Nat} (rest : List Nat) (h : ino < e) :
    getEntry ino (e :: rest) = (true, ino :: e :: rest) := by
  simp [getEntry, Nat.ne_of_lt h, h]

lemma getEntry_cons_gt {ino e : Nat} (rest : List Nat) (h : e < ino) :
    getEntry ino (e :: rest)
      = ((getEntry ino rest).1, e :: (getEntry ino rest).2) := by
  have h1 : ¬ ino = e := by omega
  have h2 : ¬ ino < e := by omega
  simp [getEntry, h1, h2]

/-- The ordered find-or-create walk on a strictly ascending list: the
result's entries come from the input plus the requested id, the id is
present, strict ascent is preserved, a second identical call finds the
entry without allocating and leaves the list unchanged, and the length
grows exactly when an entry was allocated. -/
lemma getEntry_spec (ino : Nat) :
    ∀ l : List Nat, l.Pairwise (· < ·) →
    (∀ x, x ∈ (getEntry ino l).2 → x = ino ∨ x ∈ l) ∧
    ino ∈ (getEntry ino l).2 ∧
    (getEntry ino l).2.Pairwise (· < ·) ∧
    getEntry ino (getEntry ino l).2 = (false, (getEntry ino l).2) ∧
    (getEntry ino l).2.length
      = l.length + (if (getEntry ino l).1 then 1 else 0) := by
  intro l
  induction l with
  | nil =>
    intro _
    refine ⟨?_, ?_, ?_, ?_, ?_⟩ <;> simp [getEntry]
  | cons e rest ih =>
    intro hp
    rw [List.pairwise_cons] at hp
    obtain ⟨he, hrest⟩ := hp
    by_cases h1 : ino = e
    · rw [getEntry_cons_eq rest h1]
      subst h1
      refine ⟨fun x hx => Or.inr hx, List.mem_cons_self _ _, ?_, ?_, by simp⟩
      · exact List.pairwise_cons.mpr ⟨he, hrest⟩
      · exact getEntry_cons_eq rest rfl
    · by_cases h2 : ino < e
      · rw [getEntry_cons_lt rest h2]
        refine ⟨?_, List.mem_cons_self _ _, ?_, ?_, by simp⟩
        · intro x hx
          rcases List.mem_cons.mp hx with h | h
          · exact Or.inl h
          · exact Or.inr h
        · refine List.pairwise_cons.mpr
            ⟨?_, List.pairwise_cons.mpr ⟨he, hrest⟩⟩
          intro x hx
          rcases List.mem_cons.mp hx with h | h
          · omega
          · exact lt_trans h2 (he x h)
        · exact getEntry_cons_eq _ rfl
      · have h3 : e < ino := by omega
        obtain ⟨ihsub, ihmem, ihpw, ihid, ihlen⟩ := ih hrest
        rw [getEntry_cons_gt rest h3]
        refine ⟨?_, ?_, ?_, ?_, ?_⟩
        · intro x hx
          rcases List.mem_cons.mp hx with h | h
          · exact Or.inr (h ▸ List.mem_cons_self _ _)
          · rcases ihsub x h with h' | h'
            · exact Or.inl h'
            · exact Or.inr (List.mem_cons_of_mem _ h')
        · exact List.mem_cons_of_mem _ ihmem
        · refine List.pairwise_cons.mpr ⟨?_, ihpw⟩
          intro x hx
          rcases ihsub x hx with h' | h'
          · omega
          · exact he x h'
        · rw [getEntry_cons_gt _ h3, ihid]
        · simp only [List.length_cons, ihlen]
          cases hq : (getEntry ino rest).1 <;> simp [hq]

/-- C10. The audit-table accumulator constructors are idempotent: a second
get_inode call with the same inode number finds the first call's entry,
allocates nothing and leaves every bucket unchanged; every bucket stays
strictly ascending in id (so each table holds at most one entry per id)
and contains the requested id; and likewise for get_sibling on an inode's
sibling list. -/
theorem get_inode_get_sibling_idempotent_and_sorted (ino : Nat)
    (table : Nat → List Nat)
    (hs : ∀ j, (table j).Pairwise (· < ·)) :
    (getInode ino (getInode ino table).2).1 = false ∧
    (∀ j, (getInode ino (getInode ino table).2).2 j
      = (getInode ino table).2 j) ∧
    (∀ j, ((getInode ino table).2 j).Pairwise (· < ·)) ∧
    (∀ j, ((getInode ino table).2 j).Nodup) ∧
    ino ∈ (getInode ino table).2 (ino % INODE_TABLE_BUCKETS) ∧
    (∀ sl : List Nat, sl.Pairwise (· < ·) →
      getSibling ino (getSibling ino sl).2
        = (false, (getSibling ino sl).2) ∧
      ((getSibling ino sl).2).Pairwise (· < ·) ∧
      ino ∈ (getSibling ino sl).2) := by
  obtain ⟨hsub, hmem, hpw, hid, hlen⟩ :=
    getEntry_spec ino (table (ino % INODE_TABLE_BUCKETS))
      (hs (ino % INODE_TABLE_BUCKETS))
  have hbucket : ∀ j, (getInode ino table).2 j
      = if j = ino % INODE_TABLE_BUCKETS then
          (getEntry ino (table (ino % INODE_TABLE_BUCKETS))).2
        else table j := fun j => rfl
  refine ⟨?_, ?_, ?_, ?_, ?_, ?_⟩
  · show (getEntry ino ((getInode ino table).2
        (ino % INODE_TABLE_BUCKETS))).1 = false
    rw [hbucket, if_pos rfl, hid]
  · intro j
    show (if j = ino % INODE_TABLE_BUCKETS then
        (getEntry ino ((getInode ino table).2
          (ino % INODE_TABLE_BUCKETS))).2
      else (getInode ino table).2 j) = (getInode ino table).2 j
    by_cases hj : j = ino % INODE_TABLE_BUCKETS
    · rw [if_pos hj, hbucket, if_pos rfl, hid, hj, hbucket, if_pos rfl]
    · rw [if_neg hj]
  · intro j
    rw [hbucket]
    by_cases hj : j = ino % INODE_TABLE_BUCKETS
    · rw [if_pos hj]
      exact hpw
    · rw [if_neg hj]
      exact hs j
  · intro j
    rw [hbucket]
    by_cases hj : j = ino % INODE_TABLE_BUCKETS
    · rw [if_pos hj]
      exact hpw.imp Nat.ne_of_lt
    · rw [if_neg hj]
      exact (hs j).imp Nat.ne_of_lt
  · rw [hbucket, if_pos rfl]
    exact hmem
  · intro sl hsl
    obtain ⟨_, hmem2, hpw2, hid2, _⟩ := getEntry_spec ino sl hsl
    exact ⟨hid2, hpw2, hmem2⟩

theorem get_inode_get_sibling_idempotent_and_sorted_witness :
    (5 : Nat) ∈ (getInode 5 (fun _ => [])).2 (5 % INODE_TABLE_BUCKETS) ∧
    (getInode 5 ((getInode 5 (fun _ => ([] : List Nat))).2)).1 = false ∧
    getSibling 5 (getSibling 5 ([] : List Nat)).2
      = (false, (getSibling 5 ([] : List Nat)).2) := by
  have h := get_inode_get_sibling_idempotent_and_sorted 5
      (fun _ => []) (fun j => List.Pairwise.nil)
  exact ⟨h.2.2.2.2.1, h.1, (h.2.2.2.2.2 [] List.Pairwise.nil).1⟩

end Apfsck
